import Mathlib

set_option maxHeartbeats 1000000

namespace Jycli

/-- Characters of a Python 2 (byte) string, modelled as a list of characters. -/
abbrev Str := List Char

/-- Python `s.ljust(w)`: pad on the right with spaces up to width `w`
(table.py uses `.ljust(max_lengths[index])`); no padding when `w <= len(s)`. -/
def ljust (s : Str) (w : Int) : Str :=
  s ++ List.replicate (w - (s.length : Int)).toNat ' '

/-- Python 2 `str.center(w)` (CPython `string_center`): for a positive margin
`marg = w - len(s)` the left padding is `marg / 2 + (marg & w & 1)`. -/
def center (s : Str) (w : Int) : Str :=
  let marg : Int := w - (s.length : Int)
  if marg ≤ 0 then s
  else
    let left : Int := marg / 2 + (if marg % 2 = 1 ∧ w % 2 = 1 then 1 else 0)
    List.replicate left.toNat ' ' ++ s ++ List.replicate (marg - left).toNat ' '

/-- Python string repetition `glyph * n`: empty for non-positive `n`. -/
def repChar (c : Char) (n : Int) : Str := List.replicate n.toNat c

/-- A character that Python 2 `str.splitlines` treats as a line boundary. -/
def isBreak (c : Char) : Bool := c = '\n' || c = '\r'

/-- Helper for `splitlines`: split at `\r\n`, `\r` and `\n`; a trailing boundary
still contributes a trailing empty line here (removed by `splitlines`). -/
def slAux : Str → List Str
  | [] => [[]]
  | '\r' :: '\n' :: rest => [] :: slAux rest
  | '\r' :: rest => [] :: slAux rest
  | '\n' :: rest => [] :: slAux rest
  | c :: rest =>
    match slAux rest with
    | [] => [[c]]
    | l :: ls => (c :: l) :: ls

/-- Python 2 `str.splitlines()`: boundaries are `\r\n`, `\r`, `\n`; a trailing
boundary produces no trailing empty line, and `"".splitlines() == []`. -/
def splitlines (s : Str) : List Str :=
  let r := slAux s
  if r.getLast? = some [] then r.dropLast else r

/-- Fuel-driven chunking; `chunkGo n fuel s` emits `n`-sized slices of `s`. -/
def chunkGo (n : Nat) : Nat → Str → List Str
  | _, [] => []
  | 0, _ :: _ => []
  | fuel + 1, c :: rest => List.take n (c :: rest) :: chunkGo n fuel (List.drop n (c :: rest))

/-- Chunks of exactly `n` characters, the last one possibly shorter (`n >= 1`). -/
def chunkList (n : Nat) (s : Str) : List Str := chunkGo n s.length s

/-- Modelled from the spec: `polyfills.itertools.batched` on a string (§4.4 step 2,
hard chunks of exactly `w` characters, last chunk may be shorter).  The polyfills
package is an external dependency whose source is not in this repository; like
`itertools.batched` it rejects `n < 1` (ValueError), modelled as `none`. -/
def batched (s : Str) (n : Int) : Option (List Str) :=
  if n < 1 then none else some (chunkList n.toNat s)

/-- table.py `flatten`, specialised to its single call site (depth 1, list
elements, placeholder `""` supplied): an empty inner list becomes the
placeholder, any other inner list is spliced. -/
def flatten (xss : List (List Str)) (ph : Str) : List Str :=
  (xss.map (fun xs => if xs.isEmpty then [ph] else xs)).flatten

/-- `List.mapM` over `Option`, written out: `none` as soon as one element fails
(a Python list comprehension propagates the first exception). -/
def mapOpt (f : α → Option β) : List α → Option (List β)
  | [] => some []
  | x :: xs =>
    match f x, mapOpt f xs with
    | some y, some ys => some (y :: ys)
    | _, _ => none

/-- Python `max(l)` over a list of ints (0 for the empty list, where Python raises). -/
def listMax : List Int → Int
  | [] => 0
  | x :: xs => xs.foldl max x

/-- Python `min(l)` over a list of ints (0 for the empty list, where Python raises). -/
def listMin : List Int → Int
  | [] => 0
  | x :: xs => xs.foldl min x

/-- Python `l.index(max(l))`: index of the first occurrence of the maximum. -/
def idxOfMax : List Int → Nat
  | [] => 0
  | [_] => 0
  | x :: xs => if listMax xs ≤ x then 0 else idxOfMax xs + 1

/-- Python `l.index(min(l))`: index of the first occurrence of the minimum. -/
def idxOfMin : List Int → Nat
  | [] => 0
  | [_] => 0
  | x :: xs => if x ≤ listMin xs then 0 else idxOfMin xs + 1

/-- One pass of the shrinking loop (table.py line 114):
`max_lengths[max_lengths.index(max(max_lengths))] -= 1`. -/
def decLargest (l : List Int) : List Int :=
  l.set (idxOfMax l) (l.getD (idxOfMax l) 0 - 1)

/-- One pass of the growing loop (table.py line 119):
`max_lengths[max_lengths.index(min(max_lengths))] += 1`. -/
def incSmallest (l : List Int) : List Int :=
  l.set (idxOfMin l) (l.getD (idxOfMin l) 0 + 1)

/-- table.py lines 104–109: `difference = sum(max_lengths)
+ len(u(" │ "))*(N-1) + (len(u("│ ")) + len(u(" │"))) - max_width`;
the three unicode border strings have lengths 3, 2 and 2. -/
def allocDifference (ml : List Int) (ncols : Int) (w : Int) : Int :=
  ml.sum + 3 * (ncols - 1) + (2 + 2) - w

/-- table.py lines 100–119, explicit-width path: every column starts at
`int(max_width / len(columns))` (Python 2 floor division) and the difference is
absorbed one character at a time against the current largest (or smallest)
column.  The `max_width is None` branch of the source (natural widths,
lines 92–99) is unreachable: `console.width` always yields an integer, see
`naturalLengths`. -/
def computeWidths (columns : List Str) (w : Int) : List Int :=
  let ml := columns.map (fun _ => Int.fdiv w (columns.length : Int))
  let difference := allocDifference ml (columns.length : Int) w
  if 0 < difference then Nat.iterate decLargest difference.toNat ml
  else if difference < 0 then Nat.iterate incSmallest (-difference).toNat ml
  else ml

/-- box.py `Box`: one character per glyph (the source destructures each zone's
four 1-character strings; the blank filler of head/mid/foot is unused). -/
structure Box where
  top_left : Char
  top : Char
  top_divider : Char
  top_right : Char
  head_left : Char
  head_vertical : Char
  head_right : Char
  head_row_left : Char
  head_row_horizontal : Char
  head_row_cross : Char
  head_row_right : Char
  mid_left : Char
  mid_vertical : Char
  mid_right : Char
  row_left : Char
  row_horizontal : Char
  row_cross : Char
  row_right : Char
  foot_row_left : Char
  foot_row_horizontal : Char
  foot_row_cross : Char
  foot_row_right : Char
  foot_left : Char
  foot_vertical : Char
  foot_right : Char
  bottom_left : Char
  bottom : Char
  bottom_divider : Char
  bottom_right : Char
  ascii : Bool
deriving DecidableEq

/-- box.py `ASCII` preset (`ascii=True`). -/
def boxASCII : Box :=
  ⟨'+', '-', '-', '+',
   '|', '|', '|',
   '|', '-', '+', '|',
   '|', '|', '|',
   '|', '-', '+', '|',
   '|', '-', '+', '|',
   '|', '|', '|',
   '+', '-', '-', '+',
   true⟩

/-- box.py `SQUARE` preset (the default box of `Table.__init__`). -/
def boxSQUARE : Box :=
  ⟨'┌', '─', '┬', '┐',
   '│', '│', '│',
   '├', '─', '┼', '┤',
   '│', '│', '│',
   '├', '─', '┼', '┤',
   '├', '─', '┼', '┤',
   '│', '│', '│',
   '└', '─', '┴', '┘',
   false⟩

/-- All border glyphs of a box style. -/
def boxGlyphs (b : Box) : List Char :=
  [b.top_left, b.top, b.top_divider, b.top_right,
   b.head_left, b.head_vertical, b.head_right,
   b.head_row_left, b.head_row_horizontal, b.head_row_cross, b.head_row_right,
   b.mid_left, b.mid_vertical, b.mid_right,
   b.row_left, b.row_horizontal, b.row_cross, b.row_right,
   b.foot_row_left, b.foot_row_horizontal, b.foot_row_cross, b.foot_row_right,
   b.foot_left, b.foot_vertical, b.foot_right,
   b.bottom_left, b.bottom, b.bottom_divider, b.bottom_right]

/-- table.py `Table`: name, ordered column labels, stringified rows, box style. -/
structure Table where
  name : Str
  columns : List Str
  rows : List (List Str)
  box : Box
deriving DecidableEq

/-- console/__init__.py `Console`: the constructor's `width` argument (kept only
when `str(width).isdigit()`, i.e. a non-negative integer), the width the
environment detection would report, and the terminal capability flags. -/
structure Console where
  widthParam : Option Int
  detectedWidth : Int
  isTerm : Bool
  dumbTerm : Bool

/-- `console.width` resolves through `get_terminal_size()`: the constructor
width if one was kept, otherwise the detected width.  Detection always yields
an integer (`get_terminal_size` falls back to `132` columns), so the result is
never Python `None`. -/
def Console.width (c : Console) : Int :=
  match c.widthParam with
  | some w => if 0 ≤ w then w else c.detectedWidth
  | none => c.detectedWidth

/-- console/__init__.py `is_terminal`. -/
def Console.is_terminal (c : Console) : Bool := c.isTerm

/-- console/__init__.py `is_dumb_terminal`: dumb `TERM` while writing to a terminal. -/
def Console.is_dumb_terminal (c : Console) : Bool := c.isTerm && c.dumbTerm

/-- table.py `Table.add_row`: arity check, then append of the stringified
values (values are modelled as the strings they stringify to); `none` models
the raised `Exception`, in which case nothing was appended. -/
def add_row (t : Table) (args : List Str) : Option Table :=
  if args.length ≠ t.columns.length then none
  else some (Table.mk t.name t.columns (t.rows ++ [args]) t.box)

/-- table.py lines 95–99: the natural per-column widths
(`max(header length, longest raw cell)`).  This is dead code in the source: it
is guarded by `max_width is None`, but `console.width` always produces an
integer (132-column fallback in `get_terminal_size`), so it never runs. -/
def naturalLengths (t : Table) : List Int :=
  t.rows.foldl
    (fun acc row => List.zipWith (fun m (cell : Str) => max m (cell.length : Int)) acc row)
    (t.columns.map (fun c => (c.length : Int)))

/-- Python `zip(*xss)`: tuples up to the length of the shortest list. -/
def zipRows (xss : List (List Str)) : List (List Str) :=
  match xss.map List.length with
  | [] => []
  | n :: ns => (List.range (ns.foldl min n)).map (fun j => xss.filterMap (fun xs => xs.get? j))

/-- table.py lines 145–148 (header): chunk the raw label, join the chunks with
newlines, re-split into lines, then left-justify each line to the budget. -/
def wrapHeaderCell (col : Str) (w : Int) : Option (List Str) :=
  (batched col w).map
    (fun chs => (splitlines (List.intercalate ['\n'] chs)).map (fun l => ljust l w))

/-- table.py lines 192–194 (rows, before alignment): split the cell into
paragraphs, chunk each one, and flatten with `""` as the placeholder for empty
paragraphs. -/
def rowCellChunks (cell : Str) (w : Int) : Option (List Str) :=
  (mapOpt (fun line => batched line w) (splitlines cell)).map (fun parts => flatten parts [])

/-- table.py lines 186–195: the wrapped, left-aligned visual lines of one cell. -/
def wrapRowCell (cell : Str) (w : Int) : Option (List Str) :=
  (rowCellChunks cell w).map (fun chs => chs.map (fun l => ljust l w))

/-- table.py lines 159–161 and 201–203: bottom-pad a column's block with
all-space lines of the column's width up to the tallest block `h`. -/
def padBlock (lines : List Str) (h : Nat) (w : Int) : List Str :=
  lines ++ List.replicate (h - lines.length) (List.replicate w.toNat ' ')

/-- Content line `"%s %s %s" % (left, (" " + v + " ").join(cells), right)`
(table.py lines 163–170 and 205–212). -/
def contentLine (l v r : Char) (cells : List Str) : Str :=
  [l, ' '] ++ List.intercalate [' ', v, ' '] cells ++ [' ', r]

/-- Border line `"%s%s%s"` whose fills span `width + 2`
(table.py lines 128–135, 173–180 and 225–232). -/
def borderLine (l fill cross r : Char) (ws : List Int) : Str :=
  [l] ++ List.intercalate [cross] (ws.map (fun w => repChar fill (w + 2))) ++ [r]

/-- Row separator `"%s %s %s"` with `(" " + cross + " ")`-joined fills of plain
column width (table.py lines 216–223). -/
def rowSepLine (l fill cross r : Char) (ws : List Int) : Str :=
  [l, ' '] ++ List.intercalate [' ', cross, ' '] (ws.map (fun w => repChar fill w)) ++ [' ', r]

/-- table.py lines 138–170: the visual lines of the header block.  An empty
block is appended as `'\n'.join([]) == ""`, i.e. a single empty line. -/
def headerPiece (bx : Box) (columns : List Str) (ws : List Int) : Option (List Str) :=
  (mapOpt (fun p => wrapHeaderCell p.1 p.2) (columns.zip ws)).map (fun chunked =>
    let h := (chunked.map List.length).foldl max 0
    let rows := zipRows ((chunked.zip ws).map (fun p => padBlock p.1 h p.2))
    if rows.isEmpty then [[]]
    else rows.map (fun cells => contentLine bx.head_left bx.head_vertical bx.head_right cells))

/-- table.py lines 183–212: the visual lines of one data row.  `none` models the
exceptions of the source: a row longer than `max_lengths` (IndexError at
`max_lengths[index]`) and an empty row (`max([])` raises ValueError). -/
def rowPiece (bx : Box) (ws : List Int) (row : List Str) : Option (List Str) :=
  if ws.length < row.length then none
  else if row.isEmpty then none
  else
    (mapOpt (fun p => wrapRowCell p.1 p.2) (row.zip ws)).map (fun chunked =>
      let h := (chunked.map List.length).foldl max 0
      let rows := zipRows ((chunked.zip ws).map (fun p => padBlock p.1 h p.2))
      if rows.isEmpty then [[]]
      else rows.map (fun cells => contentLine bx.mid_left bx.mid_vertical bx.mid_right cells))

/-- table.py lines 87–89: the box used by (and stored into the table by) the
render call — the ASCII fallback replaces a non-ASCII box whenever the console
is not a capable terminal. -/
def printedBox (t : Table) (c : Console) : Box :=
  if (!c.is_terminal || c.is_dumb_terminal) && !t.box.ascii then boxASCII else t.box

/-- table.py `Table.__console_print__`, as the sequence of appended pieces, each
given as its list of lines (`table.append(x)` contributes the lines of `x`;
the final string is the `"\n"`-join).  `none` models a raised exception: no
columns (`max()` / `.index()` over an empty sequence) or a column budget below
1 reaching `batched`. -/
def consolePrintBody (t : Table) (c : Console) : Option (List (List Str)) :=
  let bx := printedBox t c
  let w := c.width
  let ws := computeWidths t.columns w
  if t.columns.isEmpty then none
  else
    match headerPiece bx t.columns ws with
    | none => none
    | some hdr =>
      match mapOpt (rowPiece bx ws) t.rows with
      | none => none
      | some rowPieces =>
        some ([[[]],
          [center t.name w],
          [borderLine bx.top_left bx.top bx.top_divider bx.top_right ws],
          hdr,
          [borderLine bx.head_row_left bx.head_row_horizontal bx.head_row_cross bx.head_row_right ws]]
          ++ List.intersperse
              [rowSepLine bx.row_left bx.row_horizontal bx.row_cross bx.row_right ws] rowPieces
          ++ [[borderLine bx.bottom_left bx.bottom bx.bottom_divider bx.bottom_right ws]])

/-- table.py `Table.__console_print__`: the table state after the call (line 89
mutates `self.box`, and the mutation survives a later exception) together with
the produced pieces. -/
def consolePrintPieces (t : Table) (c : Console) : Table × Option (List (List Str)) :=
  (Table.mk t.name t.columns t.rows (printedBox t c), consolePrintBody t c)

/-- The rendered string: `"\n".join(table)` over the appended pieces. -/
def consolePrintStr (t : Table) (c : Console) : Table × Option Str :=
  let r := consolePrintPieces t c
  (r.1, r.2.map (fun ps => List.intercalate ['\n'] (ps.map (fun p => List.intercalate ['\n'] p))))

/-- table.py `Table.render(max_width)`: `__console_print__(Console(width=max_width))`;
the console's capability flags and detected width come from the environment. -/
def render (t : Table) (maxWidth : Option Int) (detectedWidth : Int)
    (isTerm dumbTerm : Bool) : Table × Option Str :=
  consolePrintStr t (Console.mk maxWidth detectedWidth isTerm dumbTerm)

/-- `Renderable._csv_escape_string`: double every double-quote (RFC 4180). -/
def csv_escape_string (s : Str) : Str :=
  (s.map (fun ch => if ch = '"' then ['"', '"'] else [ch])).flatten

/-- Python `s.find(pat) != -1`: substring containment (an empty pattern is
always found, `s.find("") == 0`). -/
def findsSub (pat : Str) : Str → Bool
  | [] => pat.isPrefixOf []
  | c :: rest => pat.isPrefixOf (c :: rest) || findsSub pat rest

/-- One CSV field as emitted by `Table.to_csv` (the `cond and quoted or raw`
idiom of lines 358–368: when `quoted` is the empty string, the `or` falls
through to the raw value). -/
def csvField (d q lt : Str) (s : Str) : Str :=
  if findsSub d s || findsSub q s || findsSub lt s then
    (if q ++ csv_escape_string s ++ q = [] then s else q ++ csv_escape_string s ++ q)
  else s

/-- table.py `Table.to_csv`: header row of column labels first, then the stored
rows, fields `delimiter`-joined, records `lineterminator`-joined. -/
def to_csv (t : Table) (d q lt : Str) : Str :=
  List.intercalate lt
    (List.intercalate d (t.columns.map (csvField d q lt))
      :: t.rows.map (fun row => List.intercalate d (row.map (csvField d q lt))))

/-- Per the spec (§4.6): a field is wrapped in the quote character, with
internal double-quote characters doubled, exactly when it contains the
delimiter, the quote character or the line terminator; otherwise verbatim. -/
def specCsvField (d q lt : Str) (s : Str) : Str :=
  if findsSub d s || findsSub q s || findsSub lt s then q ++ csv_escape_string s ++ q else s

/-- Per the spec (§4.6): CSV export, header row first, built from `specCsvField`. -/
def specToCsv (t : Table) (d q lt : Str) : Str :=
  List.intercalate lt
    (List.intercalate d (t.columns.map (specCsvField d q lt))
      :: t.rows.map (fun row => List.intercalate d (row.map (specCsvField d q lt))))

/-- A console with an explicit width, attached to a capable terminal. -/
def consoleAt (w : Int) : Console := Console.mk (some w) 132 true false

/-- A console whose output is not a terminal (e.g. piped), width 20. -/
def consolePipe : Console := Console.mk (some 20) 132 false false

/-- Two-column table with no rows (fixture). -/
def tableTwoCols : Table := Table.mk ("T".toList) ["A".toList, "B".toList] [] boxASCII

/-- Two-column table with one row (fixture). -/
def tableTwoColsRow : Table :=
  Table.mk ("T".toList) ["A".toList, "B".toList] [["x".toList, "y".toList]] boxASCII

/-- One-column table with the Unicode box (fixture). -/
def tableSquareBox : Table := Table.mk ("T".toList) ["A".toList] [] boxSQUARE

/-- One-column table with no rows (fixture). -/
def tableOneCol : Table := Table.mk ("T".toList) ["A".toList] [] boxASCII

/-- One-column table whose single cell contains the custom quote character (fixture). -/
def tableHashCell : Table := Table.mk ("T".toList) ["A".toList] [["a#b".toList]] boxASCII

/-- One-column table with two rows (fixture). -/
def tableOneColRows : Table :=
  Table.mk ("T".toList) ["A".toList] [["x".toList], ["y".toList]] boxASCII

end Jycli

namespace Jycli

/-! Small helper lemmas about the embedded Python string operations. -/

theorem intercalate_nil (sep : Str) : List.intercalate sep ([] : List Str) = [] := rfl

theorem intercalate_single (sep x : Str) : List.intercalate sep [x] = x := by
  simp [List.intercalate]

theorem intercalate_cons₂ (sep x y : Str) (zs : List Str) :
    List.intercalate sep (x :: y :: zs) = x ++ sep ++ List.intercalate sep (y :: zs) := by
  simp [List.intercalate, List.append_assoc]

theorem intercalate_length (sep : Str) :
    ∀ xs : List Str, xs ≠ [] →
      (List.intercalate sep xs).length =
        (xs.map List.length).sum + sep.length * (xs.length - 1)
  | [x], _ => by simp [intercalate_single]
  | x :: y :: zs, _ => by
    have ih := intercalate_length sep (y :: zs) (by simp)
    have hm : sep.length * (zs.length + 1) = sep.length * zs.length + sep.length := by ring
    simp only [intercalate_cons₂, List.length_append, ih, List.map_cons, List.sum_cons,
      List.length_cons, Nat.add_sub_cancel] at hm ⊢
    omega

theorem csv_escape_eq_nil {s : Str} (h : csv_escape_string s = []) : s = [] := by
  cases s with
  | nil => rfl
  | cons c rest =>
    exfalso
    by_cases hc : c = '"' <;>
      simp [csv_escape_string, hc] at h

theorem csvField_eq_specCsvField (d q lt s : Str) :
    csvField d q lt s = specCsvField d q lt s := by
  unfold csvField specCsvField
  by_cases hc : (findsSub d s || findsSub q s || findsSub lt s) = true
  · rw [if_pos hc, if_pos hc]
    by_cases hq : q ++ csv_escape_string s ++ q = []
    · obtain ⟨h1, _⟩ := List.append_eq_nil.mp hq
      obtain ⟨h3, h4⟩ := List.append_eq_nil.mp h1
      have hs : s = [] := csv_escape_eq_nil h4
      rw [if_pos hq]
      simp [hs, h3, csv_escape_string]
    · rw [if_neg hq]
  · rw [if_neg hc, if_neg hc]

/-! Theorems for the individual claims. -/

/-- Claim C5 (confirmed): `add_row` raises exactly when the number of supplied
values differs from the number of columns; on the error path nothing is
appended (the exception precedes the append), and on success exactly one row
of stringified values is appended while the other fields are untouched. -/
theorem C5_add_row (t : Table) (args : List Str) :
    (add_row t args = none ↔ args.length ≠ t.columns.length) ∧
    ∀ t2, add_row t args = some t2 →
      t2.name = t.name ∧ t2.columns = t.columns ∧ t2.box = t.box ∧
      t2.rows = t.rows ++ [args] := by
  constructor
  · unfold add_row
    by_cases h : args.length = t.columns.length <;> simp [h]
  · intro t2 h2
    unfold add_row at h2
    by_cases h : args.length = t.columns.length
    · rw [if_neg (fun hne => hne h)] at h2
      cases h2
      exact ⟨rfl, rfl, rfl, rfl⟩
    · rw [if_pos h] at h2
      exact absurd h2 (by simp)

/-- Witness for C5: on the concrete two-column table, appending a matching row
yields exactly that row at the end of `rows`. -/
theorem C5_add_row_witness :
    (Table.mk ("T".toList) ["A".toList, "B".toList] [["x".toList, "y".toList]] boxASCII).rows
      = tableTwoCols.rows ++ [["x".toList, "y".toList]] :=
  ((C5_add_row tableTwoCols ["x".toList, "y".toList]).2
    (Table.mk ("T".toList) ["A".toList, "B".toList] [["x".toList, "y".toList]] boxASCII)
    (by decide)).2.2.2

/-- Counterexample to claim C4 as stated: rendering a table holding the Unicode
`SQUARE` box on a non-terminal console overwrites the table's `box` field with
the ASCII style — render is not free of side effects on the Table. -/
theorem C4_counterexample :
    (consolePrintPieces tableSquareBox consolePipe).1.box ≠ tableSquareBox.box ∧
    (consolePrintPieces tableSquareBox consolePipe).1.box = boxASCII := by
  constructor <;> decide

/-- Claim C4 (corrected): render leaves `name`, `columns` and `rows` untouched,
but it does write the `box` field: the box is replaced by the ASCII fallback
exactly when the console lacks rich-glyph support and the current box is not
ASCII-safe; otherwise the whole table is unchanged. -/
theorem C4_frame (t : Table) (c : Console) :
    (consolePrintPieces t c).1.name = t.name ∧
    (consolePrintPieces t c).1.columns = t.columns ∧
    (consolePrintPieces t c).1.rows = t.rows ∧
    (consolePrintPieces t c).1.box =
      (if (!c.is_terminal || c.is_dumb_terminal) && !t.box.ascii then boxASCII else t.box) :=
  ⟨rfl, rfl, rfl, rfl⟩

/-- Claim C7 (confirmed): when the console is not an interactive terminal or is
a dumb terminal, and the selected box is not ASCII-safe, the renderer
substitutes the ASCII box style, and every border glyph of the style used in
the rendered output is a 7-bit character. -/
theorem C7_ascii_fallback (t : Table) (c : Console)
    (hcap : c.is_terminal = false ∨ c.is_dumb_terminal = true)
    (hbox : t.box.ascii = false) :
    printedBox t c = boxASCII ∧
    consolePrintPieces t c = consolePrintPieces (Table.mk t.name t.columns t.rows boxASCII) c ∧
    ∀ g ∈ boxGlyphs (printedBox t c), g.toNat < 128 := by
  have hfb : printedBox t c = boxASCII := by
    unfold printedBox
    rcases hcap with h | h <;> simp [h, hbox]
  have h2 : printedBox (Table.mk t.name t.columns t.rows boxASCII) c = boxASCII := by
    unfold printedBox; simp [boxASCII]
  refine ⟨hfb, ?_, ?_⟩
  · unfold consolePrintPieces consolePrintBody
    rw [hfb, h2]
  · rw [hfb]; decide

/-- Witness for C7 at a concrete input: the Unicode-box table on a piped
console falls back to the ASCII box, whose glyphs are 7-bit. -/
theorem C7_ascii_fallback_witness :
    printedBox tableSquareBox consolePipe = boxASCII ∧
    consolePrintPieces tableSquareBox consolePipe =
      consolePrintPieces
        (Table.mk tableSquareBox.name tableSquareBox.columns tableSquareBox.rows boxASCII)
        consolePipe ∧
    ∀ g ∈ boxGlyphs (printedBox tableSquareBox consolePipe), g.toNat < 128 :=
  C7_ascii_fallback tableSquareBox consolePipe (Or.inl (by decide)) (by decide)

/-- Counterexample to claim C2 as stated: with one column of natural width 5
and target 10 the code computes difference −1, whereas the claimed overhead
2 + 3·(N−1) would give −3: the outer borders cost 4 characters (glyph plus
padding space on each side), not 2. -/
theorem C2_counterexample :
    allocDifference [5] 1 10 ≠ 5 + (2 + 3 * ((1:Int) - 1)) - 10 := by decide

/-- Claim C2 (corrected): the fixed border overhead subtracted from the target
width is 4 + 3·(N−1) = 3·N + 1 — two outer border glyphs, one padding space
inside each outer border, and 3 characters per internal separator — and a
content line over N nonempty-budget cells indeed spends exactly 3·N + 1
characters outside the cells' budgets. -/
theorem C2_overhead (ml : List Int) (ncols w : Int) (l v r : Char)
    (cells : List Str) (hc : cells ≠ []) :
    allocDifference ml ncols w = ml.sum + (3 * ncols + 1) - w ∧
    (contentLine l v r cells).length =
      (cells.map List.length).sum + 3 * cells.length + 1 := by
  constructor
  · unfold allocDifference; ring
  · unfold contentLine
    simp only [List.length_append, intercalate_length [' ', v, ' '] cells hc]
    simp only [List.length_cons, List.length_nil]
    have : cells.length ≠ 0 := fun h => hc (List.eq_nil_of_length_eq_zero h)
    omega

/-- Witness for C2 at a concrete input: one cell of width 5. -/
theorem C2_overhead_witness :
    allocDifference [5] 1 10 = ([5] : List Int).sum + (3 * 1 + 1) - 10 ∧
    (contentLine '|' '|' '|' ["abcde".toList]).length =
      ((["abcde".toList] : List Str).map List.length).sum + 3 * 1 + 1 :=
  C2_overhead [5] 1 10 '|' '|' '|' ["abcde".toList] (by decide)

/-- Claim C3 (code_bug): lines 92–99 of table.py (the natural-width branch for
an unconstrained render) are dead code.  `console.width` is never `None`
(`get_terminal_size` always yields an integer, 132 as the last fallback), so a
`render(width=None)` call flows into the floor-division path: for the
two-column table with row `("x","y")` the budgets come out as `[62, 63]`
instead of the natural `[1, 1]`. -/
theorem C3_natural_widths_dead :
    (Console.mk none 132 true false).width = 132 ∧
    computeWidths tableTwoColsRow.columns ((Console.mk none 132 true false).width) = [62, 63] ∧
    naturalLengths tableTwoColsRow = [1, 1] ∧
    computeWidths tableTwoColsRow.columns ((Console.mk none 132 true false).width) ≠
      naturalLengths tableTwoColsRow := by
  refine ⟨rfl, by decide, by decide, by decide⟩

/-- Counterexample to claim C1 as stated: width 7 satisfies the claimed bound
`border_overhead + N = (2 + 3·(N−1)) + N = 7` for the two-column table, yet the
allocator drives both budgets to 0 and the render raises inside the chunker
(`batched` rejects a width below 1) instead of returning lines of width 7. -/
theorem C1_counterexample :
    ((2 + 3 * ((2:Int) - 1)) + 2 ≤ 7) ∧
    computeWidths tableTwoCols.columns 7 = [0, 0] ∧
    (consolePrintPieces tableTwoCols (consoleAt 7)).2 = none := by
  refine ⟨by decide, by decide, by decide⟩

/-- Counterexample to claim C6 as stated: the zero-row one-column table at
width 5 renders six lines — a leading empty line precedes the name line — so
the output is not "exactly name + top + header + separator + bottom". -/
theorem C6_counterexample :
    (consolePrintStr tableOneCol (consoleAt 5)).2 =
      some ("\n  T  \n+---+\n| A |\n|---|\n+---+".toList) ∧
    ("\n  T  \n+---+\n| A |\n|---|\n+---+".toList : Str) ≠
      "  T  \n+---+\n| A |\n|---|\n+---+".toList := by
  refine ⟨by decide, by decide⟩

/-- Counterexample to claim C8 as stated: with quote character `#`, the cell
`a#b` is wrapped in `#` but its internal quote character is NOT doubled — the
escape helper doubles only the double-quote character, so the claimed doubling
of the (custom) quote character fails. -/
theorem C8_counterexample :
    to_csv tableHashCell (",".toList) ("#".toList) ("\n".toList) = "A\n#a#b#".toList ∧
    ("A\n#a#b#".toList : Str) ≠ "A\n#a##b#".toList := by
  refine ⟨by decide, by decide⟩

/-- Claim C8 (corrected): `to_csv` joins fields with the delimiter and records
with the line terminator, header row first; a field is wrapped in the quote
character if and only if it contains the delimiter, the quote character or the
line terminator, with each internal DOUBLE-QUOTE character doubled (the
RFC 4180 escape is hardwired to `"` and does not track a custom quote
character); all other fields are emitted verbatim. -/
theorem C8_to_csv (t : Table) (d q lt : Str) :
    to_csv t d q lt = specToCsv t d q lt := by
  have h : csvField d q lt = specCsvField d q lt := funext (csvField_eq_specCsvField d q lt)
  unfold to_csv specToCsv
  rw [h]

/-- Counterexample to claim C9 as stated: for the two-line cell `"a\nb"` the
wrapped chunks are `["a", "b"]`; concatenating them loses the newline
character, so the original text's characters are not all reconstructed. -/
theorem C9_counterexample :
    rowCellChunks ('a' :: '\n' :: ['b']) 5 = some [['a'], ['b']] ∧
    ([['a'], ['b']] : List Str).flatten ≠ 'a' :: '\n' :: ['b'] := by
  refine ⟨by decide, by decide⟩

end Jycli

namespace Jycli

/-! Chunking lemmas. -/

theorem chunkGo_eq_of_le (n : Nat) (hn : 1 ≤ n) :
    ∀ (fuel₁ fuel₂ : Nat) (s : Str), s.length ≤ fuel₁ → s.length ≤ fuel₂ →
      chunkGo n fuel₁ s = chunkGo n fuel₂ s := by
  intro fuel₁
  induction fuel₁ with
  | zero =>
    intro fuel₂ s h1 _
    have hs : s = [] := List.eq_nil_of_length_eq_zero (Nat.le_zero.mp h1)
    subst hs
    cases fuel₂ <;> rfl
  | succ fuel ih =>
    intro fuel₂ s h1 h2
    cases s with
    | nil => cases fuel₂ <;> rfl
    | cons c rest =>
      cases fuel₂ with
      | zero => simp at h2
      | succ f2 =>
        show List.take n (c :: rest) :: chunkGo n fuel (List.drop n (c :: rest)) =
          List.take n (c :: rest) :: chunkGo n f2 (List.drop n (c :: rest))
        have hd : (List.drop n (c :: rest)).length ≤ fuel := by
          simp only [List.length_drop, List.length_cons] at h1 ⊢
          omega
        have hd2 : (List.drop n (c :: rest)).length ≤ f2 := by
          simp only [List.length_drop, List.length_cons] at h2 ⊢
          omega
        rw [ih f2 _ hd hd2]

theorem chunkList_cons (n : Nat) (hn : 1 ≤ n) (c : Char) (rest : Str) :
    chunkList n (c :: rest) =
      List.take n (c :: rest) :: chunkList n (List.drop n (c :: rest)) := by
  show chunkGo n (rest.length + 1) (c :: rest) = _
  show List.take n (c :: rest) :: chunkGo n rest.length (List.drop n (c :: rest)) = _
  unfold chunkList
  rw [chunkGo_eq_of_le n hn rest.length (List.drop n (c :: rest)).length _
    (by simp only [List.length_drop, List.length_cons]; omega) (le_refl _)]

theorem chunkGo_mem_length (n : Nat) :
    ∀ (fuel : Nat) (s : Str), ∀ ch ∈ chunkGo n fuel s, ch.length ≤ n := by
  intro fuel
  induction fuel with
  | zero => intro s ch hch; cases s <;> simp [chunkGo] at hch
  | succ fuel ih =>
    intro s ch hch
    cases s with
    | nil => simp [chunkGo] at hch
    | cons c rest =>
      rw [show chunkGo n (fuel + 1) (c :: rest) =
        List.take n (c :: rest) :: chunkGo n fuel (List.drop n (c :: rest)) from rfl] at hch
      rcases List.mem_cons.mp hch with h | h
      · subst h
        simp [List.length_take]
      · exact ih _ ch h

theorem chunkList_mem_length (n : Nat) (s : Str) : ∀ ch ∈ chunkList n s, ch.length ≤ n :=
  chunkGo_mem_length n s.length s

theorem chunkGo_flatten (n : Nat) (hn : 1 ≤ n) :
    ∀ (fuel : Nat) (s : Str), s.length ≤ fuel → (chunkGo n fuel s).flatten = s := by
  intro fuel
  induction fuel with
  | zero =>
    intro s h
    have hs : s = [] := List.eq_nil_of_length_eq_zero (Nat.le_zero.mp h)
    subst hs
    rfl
  | succ fuel ih =>
    intro s h
    cases s with
    | nil => rfl
    | cons c rest =>
      show (List.take n (c :: rest) :: chunkGo n fuel (List.drop n (c :: rest))).flatten = c :: rest
      rw [List.flatten_cons, ih _ (by
        simp only [List.length_drop, List.length_cons]
        simp only [List.length_cons] at h
        omega)]
      exact List.take_append_drop n (c :: rest)

theorem chunkList_flatten (n : Nat) (hn : 1 ≤ n) (s : Str) : (chunkList n s).flatten = s :=
  chunkGo_flatten n hn s.length s (le_refl _)

theorem chunkList_ne_nil (n : Nat) (c : Char) (rest : Str) : chunkList n (c :: rest) ≠ [] := by
  show List.take n (c :: rest) :: chunkGo n rest.length (List.drop n (c :: rest)) ≠ []
  simp

/-! Lemmas about the `splitlines` embedding. -/

theorem slAux_ne_nil (s : Str) : slAux s ≠ [] := by
  induction s using slAux.induct <;> simp_all [slAux]

theorem slAux_eq_single_nil (s : Str) (h : slAux s = [[]]) : s = [] := by
  induction s using slAux.induct <;> simp_all [slAux] <;> exact absurd h (slAux_ne_nil _)

theorem slAux_flatten (s : Str) :
    (slAux s).flatten = s.filter (fun c => !isBreak c) := by
  induction s using slAux.induct <;> simp_all [slAux, isBreak] <;> assumption

theorem slAux_mem_length (s : Str) : ∀ l ∈ slAux s, l.length ≤ s.length := by
  induction s using slAux.induct <;> simp_all [slAux] <;>
    (intro a ha
     rename_i ih
     first
       | exact le_trans (ih a ha) (by omega)
       | exact le_trans (ih.2 a ha) (by omega))

theorem slAux_head (s : Str) :
    ∃ t, slAux s = s.takeWhile (fun c => !isBreak c) :: t := by
  induction s using slAux.induct <;> simp_all [slAux, isBreak, List.takeWhile]

theorem takeWhile_append_stop (p : Char → Bool) (x : Char) (hx : p x = false) :
    ∀ (a b : Str), ((a ++ x :: b).takeWhile p) = a.takeWhile p := by
  intro a b
  induction a with
  | nil => simp [List.takeWhile_cons, hx]
  | cons c a ih =>
    by_cases hc : p c = true <;> simp [List.takeWhile_cons, hc, ih]

theorem slAux_cons_step (c : Char) (rest : Str) (hc1 : ¬c = '\x0d') (hc2 : ¬c = '\n')
    {l0 : Str} {ls0 : List Str} (h : slAux rest = l0 :: ls0) :
    slAux (c :: rest) = (c :: l0) :: ls0 := by
  rw [slAux.eq_5 c rest (fun r h1 _ => hc1 h1) hc1 hc2, h]

theorem slAux_tail_bound (w : Nat) (c : Char) (rest : Str)
    (h : ∀ l ∈ slAux (c :: rest), l.length ≤ w)
    (hc1 : ¬c = '\x0d') (hc2 : ¬c = '\n') :
    ∀ l ∈ slAux rest, l.length ≤ w := by
  obtain ⟨l0, ls0, hrest⟩ : ∃ l0 ls0, slAux rest = l0 :: ls0 := by
    cases hr : slAux rest with
    | nil => exact absurd hr (slAux_ne_nil rest)
    | cons a b => exact ⟨a, b, rfl⟩
  have hs : slAux (c :: rest) = (c :: l0) :: ls0 := slAux_cons_step c rest hc1 hc2 hrest
  intro l hl
  rw [hrest] at hl
  rcases List.mem_cons.mp hl with h1 | h1
  · subst h1
    have h2 := h (c :: l) (by rw [hs]; exact List.mem_cons_self _ _)
    simp only [List.length_cons] at h2
    omega
  · exact h l (by rw [hs]; exact List.mem_cons_of_mem _ h1)

theorem slAux_append_newline (w : Nat) :
    ∀ (a : Str), (∀ l ∈ slAux a, l.length ≤ w) →
      ∀ (b : Str), (∀ l ∈ slAux b, l.length ≤ w) →
      ∀ l ∈ slAux (a ++ '\n' :: b), l.length ≤ w := by
  intro a
  induction a using slAux.induct with
  | case1 =>
    intro _ b hb l hl
    simp only [List.nil_append, slAux.eq_4] at hl
    rcases List.mem_cons.mp hl with h | h
    · simp [h]
    · exact hb l h
  | case2 rest ih =>
    intro ha b hb l hl
    have ha2 : ∀ l ∈ slAux rest, l.length ≤ w := by
      intro l2 hl2
      exact ha l2 (by rw [slAux.eq_2]; exact List.mem_cons_of_mem _ hl2)
    rw [List.cons_append, List.cons_append, slAux.eq_2] at hl
    rcases List.mem_cons.mp hl with h | h
    · simp [h]
    · exact ih ha2 b hb l h
  | case3 rest hpat ih =>
    intro ha b hb l hl
    have ha2 : ∀ l ∈ slAux rest, l.length ≤ w := by
      intro l2 hl2
      exact ha l2 (by rw [slAux.eq_3 rest hpat]; exact List.mem_cons_of_mem _ hl2)
    cases rest with
    | nil =>
      rw [List.cons_append, List.nil_append, slAux.eq_2] at hl
      rcases List.mem_cons.mp hl with h | h
      · simp [h]
      · exact hb l h
    | cons r0 rest2 =>
      have hr0 : ¬r0 = '\n' := fun hr => hpat rest2 (by rw [hr])
      rw [List.cons_append, List.cons_append,
        slAux.eq_3 (r0 :: (rest2 ++ '\n' :: b))
          (fun r1 hend => hr0 (List.cons_eq_cons.mp hend).1)] at hl
      rcases List.mem_cons.mp hl with h | h
      · simp [h]
      · rw [← List.cons_append] at h
        exact ih ha2 b hb l h
  | case4 rest ih =>
    intro ha b hb l hl
    have ha2 : ∀ l ∈ slAux rest, l.length ≤ w := by
      intro l2 hl2
      exact ha l2 (by rw [slAux.eq_4]; exact List.mem_cons_of_mem _ hl2)
    rw [List.cons_append, slAux.eq_4] at hl
    rcases List.mem_cons.mp hl with h | h
    · simp [h]
    · exact ih ha2 b hb l h
  | case5 c rest h1 h2 h3 hnil ih =>
    exact absurd hnil (slAux_ne_nil rest)
  | case6 c rest h1 h2 h3 l0 ls0 hcons ih =>
    intro ha b hb l hl
    have ha2 : ∀ l ∈ slAux rest, l.length ≤ w := slAux_tail_bound w c rest ha h2 h3
    have hrec := ih ha2 b hb
    obtain ⟨t1, ht1⟩ := slAux_head (rest ++ '\n' :: b)
    rw [List.cons_append, slAux_cons_step c (rest ++ '\n' :: b) h2 h3 ht1] at hl
    rcases List.mem_cons.mp hl with h | h
    · subst h
      simp only [List.length_cons]
      rw [takeWhile_append_stop _ '\n' (by simp [isBreak]) rest b]
      have hl0 : l0 = rest.takeWhile (fun ch => !isBreak ch) := by
        obtain ⟨t2, ht2⟩ := slAux_head rest
        rw [hcons] at ht2
        exact (List.cons_eq_cons.mp ht2).1
      have hhead := ha (c :: l0) (by
        rw [slAux_cons_step c rest h2 h3 hcons]
        exact List.mem_cons_self _ _)
      simp only [List.length_cons] at hhead
      rw [← hl0]
      exact hhead
    · exact hrec l (by rw [ht1]; exact List.mem_cons_of_mem _ h)


theorem slAux_intercalate_bound (w : Nat) :
    ∀ (chunks : List Str), (∀ ch ∈ chunks, ch.length ≤ w) →
      ∀ l ∈ slAux (List.intercalate ['\n'] chunks), l.length ≤ w := by
  intro chunks
  induction chunks with
  | nil =>
    intro _ l hl
    rcases (by simpa [intercalate_nil, slAux] using hl : l = []) with rfl
    simp
  | cons x rest ih =>
    intro hch
    cases rest with
    | nil =>
      intro l hl
      rw [intercalate_single] at hl
      exact le_trans (slAux_mem_length x l hl) (hch x (by simp))
    | cons y zs =>
      rw [intercalate_cons₂, List.append_assoc, List.singleton_append]
      refine slAux_append_newline w x ?_ _ ?_
      · intro l hl
        exact le_trans (slAux_mem_length x l hl) (hch x (by simp))
      · exact ih (fun ch h => hch ch (List.mem_cons_of_mem _ h))

theorem splitlines_sub (s : Str) : ∀ l ∈ splitlines s, l ∈ slAux s := by
  unfold splitlines
  by_cases h : (slAux s).getLast? = some ([] : Str)
  · rw [if_pos h]
    intro l hl
    exact List.dropLast_subset _ hl
  · rw [if_neg h]
    intro l hl
    exact hl

theorem splitlines_flatten (s : Str) :
    (splitlines s).flatten = s.filter (fun c => !isBreak c) := by
  unfold splitlines
  by_cases h : (slAux s).getLast? = some ([] : Str)
  · rw [if_pos h]
    have hne : slAux s ≠ [] := slAux_ne_nil s
    have hg : (slAux s).getLast hne = [] := by
      have := List.getLast?_eq_getLast (slAux s) hne
      rw [this] at h
      exact Option.some_inj.mp h
    have hsplit : (slAux s).dropLast ++ [(slAux s).getLast hne] = slAux s :=
      List.dropLast_append_getLast hne
    have := slAux_flatten s
    rw [← hsplit, List.flatten_append, hg] at this
    simpa using this
  · rw [if_neg h]
    exact slAux_flatten s

theorem splitlines_eq_nil (s : Str) (h : splitlines s = []) : s = [] := by
  unfold splitlines at h
  by_cases hg : (slAux s).getLast? = some ([] : Str)
  · rw [if_pos hg] at h
    have hne : slAux s ≠ [] := slAux_ne_nil s
    have hsplit : (slAux s).dropLast ++ [(slAux s).getLast hne] = slAux s :=
      List.dropLast_append_getLast hne
    rw [h, List.nil_append] at hsplit
    have hlast : (slAux s).getLast hne = [] := by
      have := List.getLast?_eq_getLast (slAux s) hne
      rw [this] at hg
      exact Option.some_inj.mp hg
    exact slAux_eq_single_nil s (by rw [← hsplit, hlast])
  · rw [if_neg hg] at h
    exact absurd h (slAux_ne_nil s)

theorem splitlines_bound (w : Nat) (chunks : List Str)
    (hch : ∀ ch ∈ chunks, ch.length ≤ w) :
    ∀ l ∈ splitlines (List.intercalate ['\n'] chunks), l.length ≤ w := by
  intro l hl
  exact slAux_intercalate_bound w chunks hch l (splitlines_sub _ l hl)

/-! `mapOpt` and `flatten` lemmas. -/

theorem mapOpt_eq_map (f : α → Option β) (g : α → β) :
    ∀ xs : List α, (∀ x ∈ xs, f x = some (g x)) → mapOpt f xs = some (xs.map g) := by
  intro xs
  induction xs with
  | nil => intro _; rfl
  | cons x rest ih =>
    intro h
    show (match f x, mapOpt f rest with
      | some y, some ys => some (y :: ys)
      | _, _ => none) = _
    rw [h x (by simp), ih (fun a ha => h a (List.mem_cons_of_mem _ ha))]
    rfl

theorem flatten_ph_flatten (xss : List (List Str)) :
    (flatten xss []).flatten = (xss.flatten).flatten := by
  induction xss with
  | nil => rfl
  | cons xs rest ih =>
    unfold flatten at ih ⊢
    simp only [List.map_cons, List.flatten_cons, List.flatten_append, ih]
    by_cases h : xs.isEmpty = true
    · have hxs : xs = [] := by simpa [List.isEmpty_iff] using h
      rw [if_pos h, hxs]
      rfl
    · rw [if_neg h]

theorem map_chunk_flatten (n : Nat) (hn : 1 ≤ n) :
    ∀ paras : List Str, ((paras.map (chunkList n)).flatten).flatten = paras.flatten := by
  intro paras
  induction paras with
  | nil => rfl
  | cons p rest ih =>
    simp only [List.map_cons, List.flatten_cons, List.flatten_append, ih,
      chunkList_flatten n hn p]

/-! Claim C9 and its witness. -/

/-- Claim C9 (corrected): for budget W ≥ 1 the wrapped cell's lines are exactly
the chunks left-justified to W (alignment only appends spaces), and
concatenating the chunks reconstructs the original text with its
line-terminator characters removed — every other character in order; the
newline characters themselves are lost, so the full original is recovered
exactly when it had no line terminators. -/
theorem C9_wrap_roundtrip (cell : Str) (w : Int) (hw : 1 ≤ w) :
    ∃ chs, rowCellChunks cell w = some chs ∧
      chs.flatten = cell.filter (fun ch => !isBreak ch) ∧
      wrapRowCell cell w = some (chs.map (fun l => ljust l w)) := by
  have hb : ∀ line ∈ splitlines cell, batched line w = some (chunkList w.toNat line) := by
    intro line _
    unfold batched
    rw [if_neg (by omega)]
  have hm := mapOpt_eq_map _ _ (splitlines cell) hb
  refine ⟨flatten ((splitlines cell).map (chunkList w.toNat)) [], ?_, ?_, ?_⟩
  · unfold rowCellChunks
    rw [hm]
    rfl
  · rw [flatten_ph_flatten, map_chunk_flatten w.toNat (by omega)]
    exact splitlines_flatten cell
  · unfold wrapRowCell rowCellChunks
    rw [hm]
    rfl

/-- Witness for C9 at the concrete cell `"ab"` with budget 1. -/
theorem C9_wrap_roundtrip_witness :
    ∃ chs, rowCellChunks ("ab".toList) 1 = some chs ∧
      chs.flatten = ("ab".toList).filter (fun ch => !isBreak ch) ∧
      wrapRowCell ("ab".toList) 1 = some (chs.map (fun l => ljust l 1)) :=
  C9_wrap_roundtrip ("ab".toList) 1 (by decide)

end Jycli

namespace Jycli

/-- Structure of a successful render: the piece list always starts with the
empty line (from `table.append("" * max_width)`) and has more pieces after it. -/
theorem consolePrintBody_shape (t : Table) (c : Console) (ps : List (List Str))
    (h : consolePrintBody t c = some ps) :
    ∃ tail, ps = [[]] :: tail ∧ tail ≠ [] := by
  simp only [consolePrintBody] at h
  by_cases he : t.columns.isEmpty = true
  · rw [if_pos he] at h
    exact absurd h (by simp)
  · rw [if_neg he] at h
    cases hh : headerPiece (printedBox t c) t.columns (computeWidths t.columns c.width) with
    | none => rw [hh] at h; exact absurd h (by simp)
    | some hdr =>
      rw [hh] at h
      cases hr : mapOpt (rowPiece (printedBox t c) (computeWidths t.columns c.width)) t.rows with
      | none => rw [hr] at h; exact absurd h (by simp)
      | some rps =>
        rw [hr] at h
        have hps := (Option.some_inj.mp h).symm
        refine ⟨ps.tail, ?_, ?_⟩
        · rw [hps]
          simp
        · rw [hps]
          simp

/-- Claim C10 (confirmed): the renderer appends `"" * max_width` — the empty
string — before the centered name line, so every successfully rendered string
begins with an empty first line: the returned string starts with a newline. -/
theorem C10_leading_blank (t : Table) (c : Console) (s : Str)
    (h : (consolePrintStr t c).2 = some s) : ∃ rest, s = '\n' :: rest := by
  simp only [consolePrintStr, consolePrintPieces] at h
  cases hb : consolePrintBody t c with
  | none => rw [hb] at h; exact absurd h (by simp)
  | some ps =>
    rw [hb] at h
    simp only [Option.map_some'] at h
    obtain ⟨tail, hps, hne⟩ := consolePrintBody_shape t c ps hb
    subst hps
    cases tail with
    | nil => exact absurd rfl hne
    | cons p rest =>
      refine ⟨List.intercalate ['\n'] ((p :: rest).map (fun q => List.intercalate ['\n'] q)), ?_⟩
      rw [← Option.some_inj.mp h]
      rw [List.map_cons, List.map_cons, intercalate_cons₂, intercalate_single]
      rfl

/-- Witness for C10: the concrete one-column table rendered at width 5 begins
with an empty line. -/
theorem C10_leading_blank_witness :
    ∃ rest, ("\n  T  \n+---+\n| A |\n|---|\n+---+".toList : Str) = '\n' :: rest :=
  C10_leading_blank tableOneCol (consoleAt 5) _ (by decide)

end Jycli

namespace Jycli

/-! Facts about `foldl max` / `foldl min` (Python `max`, `min`). -/

theorem le_foldl_max [LinearOrder α] (xs : List α) : ∀ a : α, a ≤ xs.foldl max a := by
  induction xs with
  | nil => intro a; exact le_refl a
  | cons x rest ih => intro a; exact le_trans (le_max_left a x) (ih (max a x))

theorem mem_le_foldl_max [LinearOrder α] (xs : List α) :
    ∀ (a e : α), e ∈ xs → e ≤ xs.foldl max a := by
  induction xs with
  | nil => intro a e he; cases he
  | cons x rest ih =>
    intro a e he
    rcases List.mem_cons.mp he with h | h
    · subst h; exact le_trans (le_max_right a e) (le_foldl_max rest _)
    · exact ih _ e h

theorem foldl_max_cases [LinearOrder α] (xs : List α) :
    ∀ a : α, xs.foldl max a = a ∨ xs.foldl max a ∈ xs := by
  induction xs with
  | nil => intro a; exact Or.inl rfl
  | cons x rest ih =>
    intro a
    rw [List.foldl_cons]
    rcases ih (max a x) with h | h
    · rcases max_choice a x with he | he
      · left; rw [h, he]
      · right; rw [h, he]; exact List.mem_cons_self _ _
    · right; exact List.mem_cons_of_mem _ h

theorem foldl_min_const (ls : List Nat) (H : Nat) (h : ∀ x ∈ ls, x = H) :
    ls.foldl min H = H := by
  induction ls with
  | nil => rfl
  | cons x rest ih =>
    rw [List.foldl_cons, h x (by simp), min_self]
    exact ih (fun u hu => h u (List.mem_cons_of_mem _ hu))

theorem listMax_spec (l : List Int) (x : Int) (hmem : x ∈ l) (hle : ∀ e ∈ l, e ≤ x) :
    listMax l = x := by
  cases l with
  | nil => cases hmem
  | cons h0 t =>
    show t.foldl max h0 = x
    apply le_antisymm
    · rcases foldl_max_cases t h0 with he | he
      · rw [he]; exact hle h0 (by simp)
      · exact hle _ (List.mem_cons_of_mem _ he)
    · rcases List.mem_cons.mp hmem with hx | hx
      · subst hx; exact le_foldl_max t x
      · exact mem_le_foldl_max t h0 x hx

theorem listMax_config (a b : Nat) (y x : Int) (hyx : y ≤ x) (hb : 1 ≤ b) :
    listMax (List.replicate a y ++ List.replicate b x) = x := by
  apply listMax_spec
  · exact List.mem_append.mpr (Or.inr (List.mem_replicate.mpr ⟨by omega, rfl⟩))
  · intro e he
    rcases List.mem_append.mp he with h | h
    · rw [List.eq_of_mem_replicate h]; exact hyx
    · rw [List.eq_of_mem_replicate h]

theorem listMax_cons_replicate (k : Nat) (x : Int) : listMax (x :: List.replicate k x) = x := by
  apply listMax_spec
  · exact List.mem_cons_self _ _
  · intro e he
    rcases List.mem_cons.mp he with h | h
    · rw [h]
    · rw [List.eq_of_mem_replicate h]

theorem idxOfMax_cons_cons (x y : Int) (ys : List Int) :
    idxOfMax (x :: y :: ys) =
      if listMax (y :: ys) ≤ x then 0 else idxOfMax (y :: ys) + 1 := rfl

theorem idxOfMax_replicate (b : Nat) (x : Int) : idxOfMax (List.replicate b x) = 0 := by
  cases b with
  | zero => rfl
  | succ b2 =>
    cases b2 with
    | zero => rfl
    | succ b3 =>
      rw [List.replicate_succ, List.replicate_succ, idxOfMax_cons_cons]
      rw [if_pos (le_of_eq (listMax_cons_replicate b3 x))]

theorem idxOfMax_config (y x : Int) (hyx : y < x) :
    ∀ (a b : Nat), 1 ≤ b →
      idxOfMax (List.replicate a y ++ List.replicate b x) = a := by
  intro a
  induction a with
  | zero =>
    intro b hb
    rw [List.replicate_zero, List.nil_append]
    exact idxOfMax_replicate b x
  | succ a2 ih =>
    intro b hb
    rw [List.replicate_succ, List.cons_append]
    cases a2 with
    | zero =>
      rw [List.replicate_zero, List.nil_append]
      cases b with
      | zero => omega
      | succ b2 =>
        rw [List.replicate_succ, idxOfMax_cons_cons, listMax_cons_replicate b2 x,
          if_neg (by omega), ← List.replicate_succ, idxOfMax_replicate]
    | succ a3 =>
      rw [List.replicate_succ, List.cons_append, idxOfMax_cons_cons, ← List.cons_append,
        ← List.replicate_succ]
      rw [listMax_config (a3 + 1) b y x (le_of_lt hyx) hb]
      rw [if_neg (by omega)]
      rw [ih b hb]

theorem getD_config (y x : Int) :
    ∀ (a b : Nat), 1 ≤ b →
      (List.replicate a y ++ List.replicate b x).getD a 0 = x := by
  intro a
  induction a with
  | zero =>
    intro b hb
    cases b with
    | zero => omega
    | succ b2 => rw [List.replicate_zero, List.nil_append, List.replicate_succ]; rfl
  | succ a2 ih =>
    intro b hb
    rw [List.replicate_succ, List.cons_append]
    show (List.replicate a2 y ++ List.replicate b x).getD a2 0 = x
    exact ih b hb

theorem set_config (y x v : Int) :
    ∀ (a b : Nat), 1 ≤ b →
      (List.replicate a y ++ List.replicate b x).set a v =
        List.replicate a y ++ (v :: List.replicate (b - 1) x) := by
  intro a
  induction a with
  | zero =>
    intro b hb
    cases b with
    | zero => omega
    | succ b2 =>
      rw [List.replicate_zero, List.nil_append, List.nil_append, List.replicate_succ]
      simp
  | succ a2 ih =>
    intro b hb
    rw [List.replicate_succ, List.cons_append, List.cons_append, List.set_cons_succ]
    rw [ih b hb]

theorem decLargest_config (a b : Nat) (x : Int) (hb : 1 ≤ b) :
    decLargest (List.replicate a (x - 1) ++ List.replicate b x) =
      List.replicate (a + 1) (x - 1) ++ List.replicate (b - 1) x := by
  unfold decLargest
  rw [idxOfMax_config (x - 1) x (by omega) a b hb, getD_config (x - 1) x a b hb,
    set_config (x - 1) x (x - 1) a b hb]
  rw [List.replicate_succ' a (x - 1), List.append_assoc, List.singleton_append]

theorem iterate_decLargest (N : Nat) (hN : 1 ≤ N) (q : Int) :
    ∀ k : Nat,
      Nat.iterate decLargest k (List.replicate N q) =
        List.replicate (k % N) (q - (↑(k / N) : Int) - 1) ++
          List.replicate (N - k % N) (q - (↑(k / N) : Int)) := by
  intro k
  induction k with
  | zero => simp
  | succ k ih =>
    rw [Function.iterate_succ_apply', ih]
    have hmod : k % N < N := Nat.mod_lt k (by omega)
    have hdm : N * (k / N) + k % N = k := Nat.div_add_mod k N
    by_cases hlast : k % N + 1 = N
    · have hx : k + 1 = N * (k / N + 1) := by
        rw [Nat.mul_add, Nat.mul_one]
        omega
      have h1 : (k + 1) % N = 0 := by rw [hx, Nat.mul_mod_right]
      have h2 : (k + 1) / N = k / N + 1 := by
        rw [hx, Nat.mul_div_cancel_left _ (by omega : 0 < N)]
      rw [h1, h2]
      have hstep := decLargest_config (k % N) (N - k % N) (q - (↑(k / N) : Int))
        (by omega)
      rw [show q - (↑(k / N) : Int) - 1 = (q - (↑(k / N) : Int)) - 1 from rfl] at hstep
      rw [hstep]
      rw [show k % N + 1 = N from hlast]
      rw [show N - k % N - 1 = 0 from by omega]
      rw [List.replicate_zero, List.append_nil, List.replicate_zero, List.nil_append]
      congr 1
      · push_cast
        ring
    · have hx : k + 1 = (k % N + 1) + N * (k / N) := by omega
      have h1 : (k + 1) % N = k % N + 1 := by
        rw [hx, Nat.add_mul_mod_self_left]
        exact Nat.mod_eq_of_lt (by omega)
      have h2 : (k + 1) / N = k / N := by
        rw [hx, Nat.add_mul_div_left _ _ (by omega : 0 < N),
          Nat.div_eq_of_lt (by omega), Nat.zero_add]
      rw [h1, h2]
      have hstep := decLargest_config (k % N) (N - k % N) (q - (↑(k / N) : Int))
        (by omega)
      rw [hstep]
      rw [show N - (k % N + 1) = N - k % N - 1 from by omega]

end Jycli

namespace Jycli

theorem sum_replicate_int (n : Nat) (x : Int) : (List.replicate n x).sum = (n : Int) * x := by
  induction n with
  | zero => simp
  | succ m ih =>
    rw [List.replicate_succ, List.sum_cons, ih]
    push_cast
    ring

theorem map_const_replicate (q : Int) (l : List Str) :
    l.map (fun _ => q) = List.replicate l.length q := by
  induction l with
  | nil => rfl
  | cons a t ih => simp only [List.map_cons, List.length_cons, List.replicate_succ, ih]

/-- The allocator at an explicit width `W ≥ 4N+1`: exactly `N` budgets, all at
least 1, summing to `W − (3N+1)` — so the rendered width comes out exactly `W`. -/
theorem computeWidths_spec (columns : List Str) (W : Int)
    (hN : 1 ≤ columns.length) (hW : 4 * (columns.length : Int) + 1 ≤ W) :
    (computeWidths columns W).length = columns.length ∧
    (∀ w ∈ computeWidths columns W, 1 ≤ w) ∧
    (computeWidths columns W).sum = W - 3 * (columns.length : Int) - 1 := by
  have hNI : (1 : Int) ≤ (columns.length : Int) := by exact_mod_cast hN
  have hNpos : (0 : Int) < (columns.length : Int) := by omega
  have hW0 : (0 : Int) ≤ W := by omega
  set N := columns.length with hNdef
  set q := Int.fdiv W (N : Int) with hqdef
  have hqdiv : q = W / (N : Int) := Int.fdiv_eq_ediv W (by omega)
  have hWNq : (N : Int) * q + W % (N : Int) = W := by
    rw [hqdiv]
    exact Int.ediv_add_emod W (N : Int)
  have hr0 : (0 : Int) ≤ W % (N : Int) := Int.emod_nonneg W (by omega)
  have hrN : W % (N : Int) < (N : Int) := Int.emod_lt_of_pos W hNpos
  have hml : columns.map (fun _ => Int.fdiv W ((columns.length : Nat) : Int)) =
      List.replicate N q := map_const_replicate q columns
  have hd_eq : allocDifference (List.replicate N q) (N : Int) W =
      (N : Int) * q + 3 * (N : Int) + 1 - W := by
    unfold allocDifference
    rw [sum_replicate_int]
    ring
  have hd_pos : 0 < allocDifference (List.replicate N q) (N : Int) W := by
    rw [hd_eq]
    omega
  have hd_le : allocDifference (List.replicate N q) (N : Int) W ≤ (N : Int) * (q - 1) := by
    rw [hd_eq]
    have hexp : (N : Int) * (q - 1) = (N : Int) * q - (N : Int) := by ring
    omega
  set d := allocDifference (List.replicate N q) (N : Int) W with hddef
  have hk : ((d.toNat : Nat) : Int) = d := Int.toNat_of_nonneg (le_of_lt hd_pos)
  have hcw : computeWidths columns W =
      Nat.iterate decLargest d.toNat (List.replicate N q) := by
    unfold computeWidths
    rw [hml]
    rw [if_pos hd_pos]
  set k := d.toNat with hkdef
  have hdm : N * (k / N) + k % N = k := Nat.div_add_mod k N
  have hmodN : k % N < N := Nat.mod_lt k (by omega)
  have hdmI : (N : Int) * ((k / N : Nat) : Int) + ((k % N : Nat) : Int) = d := by
    rw [← hk]
    exact_mod_cast hdm
  have hmle : ((k / N : Nat) : Int) ≤ q - 1 := by
    have h1 : (N : Int) * ((k / N : Nat) : Int) ≤ (N : Int) * (q - 1) := by
      have h2 : ((k % N : Nat) : Int) ≥ 0 := by positivity
      omega
    exact le_of_mul_le_mul_left h1 hNpos
  have hmlt : 1 ≤ k % N → ((k / N : Nat) : Int) ≤ q - 2 := by
    intro ha
    have haI : (1 : Int) ≤ ((k % N : Nat) : Int) := by exact_mod_cast ha
    have h1 : (N : Int) * ((k / N : Nat) : Int) < (N : Int) * (q - 1) := by omega
    have := lt_of_mul_lt_mul_left h1 (le_of_lt hNpos)
    omega
  rw [hcw, iterate_decLargest N hN q k]
  refine ⟨?_, ?_, ?_⟩
  · simp only [List.length_append, List.length_replicate]
    omega
  · intro w hw
    rcases List.mem_append.mp hw with h | h
    · obtain ⟨hcount, hval⟩ := List.mem_replicate.mp h
      subst hval
      have := hmlt (by omega)
      omega
    · obtain ⟨hcount, hval⟩ := List.mem_replicate.mp h
      subst hval
      omega
  · rw [List.sum_append, sum_replicate_int, sum_replicate_int]
    have hc1 : ((N - k % N : Nat) : Int) = (N : Int) - ((k % N : Nat) : Int) := by
      have : k % N ≤ N := le_of_lt hmodN
      push_cast [this]
      ring
    rw [hc1]
    have halg : ((k % N : Nat) : Int) * (q - ((k / N : Nat) : Int) - 1) +
        ((N : Int) - ((k % N : Nat) : Int)) * (q - ((k / N : Nat) : Int)) =
        (N : Int) * q - ((N : Int) * ((k / N : Nat) : Int) + ((k % N : Nat) : Int)) := by
      ring
    rw [halg, hdmI]
    rw [hd_eq] at hddef ⊢
    omega

end Jycli

namespace Jycli

theorem ljust_length (s : Str) (w : Int) (h : (s.length : Int) ≤ w) :
    (ljust s w).length = w.toNat := by
  unfold ljust
  rw [List.length_append, List.length_replicate]
  omega

theorem get?_eq_getD (d : α) : ∀ (l : List α) (j : Nat), j < l.length → l.get? j = some (l.getD j d)
  | [], j, h => absurd h (by simp)
  | a :: l, 0, _ => rfl
  | a :: l, j + 1, h => get?_eq_getD d l j (by simpa using h)

theorem getD_mem (d : α) : ∀ (l : List α) (j : Nat), j < l.length → l.getD j d ∈ l
  | [], j, h => absurd h (by simp)
  | a :: l, 0, _ => List.mem_cons_self a l
  | a :: l, j + 1, h => List.mem_cons_of_mem a (getD_mem d l j (by simpa using h))

theorem filterMap_get?_eq_map (j : Nat) :
    ∀ (xss : List (List Str)), (∀ b ∈ xss, j < b.length) →
      xss.filterMap (fun xs => xs.get? j) = xss.map (fun b => b.getD j []) := by
  intro xss
  induction xss with
  | nil => intro _; rfl
  | cons b bs ih =>
    intro h
    rw [List.filterMap_cons, get?_eq_getD [] b j (h b (by simp))]
    rw [List.map_cons, ih (fun u hu => h u (List.mem_cons_of_mem _ hu))]

theorem zipRows_spec (xss : List (List Str)) (H : Nat) (hne : xss ≠ [])
    (hlen : ∀ b ∈ xss, b.length = H) :
    (zipRows xss).length = H ∧
    ∀ r ∈ zipRows xss, ∃ j, j < H ∧ r = xss.map (fun b => b.getD j []) := by
  cases xss with
  | nil => exact absurd rfl hne
  | cons b0 rest =>
    simp only [zipRows, List.map_cons]
    have hfold : (rest.map List.length).foldl min b0.length = H := by
      rw [hlen b0 (List.mem_cons_self _ _)]
      apply foldl_min_const
      intro x hx
      obtain ⟨b, hb, rfl⟩ := List.mem_map.mp hx
      exact hlen b (List.mem_cons_of_mem _ hb)
    rw [hfold]
    constructor
    · simp
    · intro r hr
      obtain ⟨j, hjmem, hres⟩ := List.mem_map.mp hr
      have hj : j < H := List.mem_range.mp hjmem
      refine ⟨j, hj, ?_⟩
      rw [← hres]
      exact filterMap_get?_eq_map j (b0 :: rest) (fun b hb => by rw [hlen b hb]; exact hj)

theorem padBlock_len (lines : List Str) (H : Nat) (w : Int) (hle : lines.length ≤ H) :
    (padBlock lines H w).length = H := by
  unfold padBlock
  rw [List.length_append, List.length_replicate]
  omega

theorem padBlock_mem (lines : List Str) (H : Nat) (w : Int)
    (h : ∀ l ∈ lines, l.length = w.toNat) :
    ∀ l ∈ padBlock lines H w, l.length = w.toNat := by
  intro l hl
  unfold padBlock at hl
  rcases List.mem_append.mp hl with h1 | h1
  · exact h l h1
  · rw [List.eq_of_mem_replicate h1, List.length_replicate]

theorem flatten_mem_le (xss : List (List Str)) (ph : Str) (w : Nat)
    (hx : ∀ xs ∈ xss, ∀ x ∈ xs, x.length ≤ w) (hp : ph.length ≤ w) :
    ∀ x ∈ flatten xss ph, x.length ≤ w := by
  intro x hx2
  unfold flatten at hx2
  obtain ⟨l, hl, hxl⟩ := List.mem_flatten.mp hx2
  obtain ⟨xs, hxs, rfl⟩ := List.mem_map.mp hl
  by_cases h : xs.isEmpty = true
  · rw [if_pos h] at hxl
    rcases List.mem_singleton.mp hxl with rfl
    exact hp
  · rw [if_neg h] at hxl
    exact hx xs hxs x hxl

theorem flatten_cons_ne_nil (xs : List Str) (xss : List (List Str)) (ph : Str) :
    flatten (xs :: xss) ph ≠ [] := by
  unfold flatten
  simp only [List.map_cons, List.flatten_cons]
  by_cases h : xs.isEmpty = true
  · simp [h]
  · rw [if_neg h]
    intro hcontra
    obtain ⟨h1, _⟩ := List.append_eq_nil.mp hcontra
    exact h (by simp [List.isEmpty_iff, h1])

theorem sum_map_toNat (ws : List Int) (h : ∀ w ∈ ws, 0 ≤ w) :
    ((ws.map Int.toNat).sum : Int) = ws.sum := by
  induction ws with
  | nil => rfl
  | cons w rest ih =>
    simp only [List.map_cons, List.sum_cons, Nat.cast_add]
    rw [ih (fun u hu => h u (List.mem_cons_of_mem _ hu)),
      Int.toNat_of_nonneg (h w (List.mem_cons_self _ _))]

theorem padded_row_lengths (H j : Nat) (hj : j < H) :
    ∀ (blocks : List (List Str)) (ws : List Int),
      blocks.length = ws.length →
      (∀ pr ∈ blocks.zip ws, ∀ line ∈ pr.1, line.length = pr.2.toNat) →
      (∀ b ∈ blocks, b.length ≤ H) →
      (((blocks.zip ws).map (fun p => padBlock p.1 H p.2)).map
          (fun b => b.getD j [])).map List.length = ws.map Int.toNat := by
  intro blocks
  induction blocks with
  | nil =>
    intro ws hlen _ _
    cases ws with
    | nil => rfl
    | cons a b => simp at hlen
  | cons b bs ih =>
    intro ws hlen hok hle
    cases ws with
    | nil => simp at hlen
    | cons w ws2 =>
      simp only [List.zip_cons_cons, List.map_cons]
      have hlenpad : (padBlock b H w).length = H :=
        padBlock_len b H w (hle b (List.mem_cons_self _ _))
      have hhead : ((padBlock b H w).getD j []).length = w.toNat := by
        have hmem : (padBlock b H w).getD j [] ∈ padBlock b H w :=
          getD_mem [] _ j (by rw [hlenpad]; exact hj)
        exact padBlock_mem b H w
          (fun l hl => hok (b, w) (List.mem_cons_self _ _) l hl) _ hmem
      rw [hhead, ih ws2 (by simpa using hlen)
        (fun pr hpr => hok pr (List.mem_cons_of_mem _ hpr))
        (fun u hu => hle u (List.mem_cons_of_mem _ hu))]

end Jycli

namespace Jycli

theorem zip_blocks_ok (f : Str → Int → List Str)
    (hf : ∀ (s : Str) (w : Int), 1 ≤ w → ∀ line ∈ f s w, line.length = w.toNat) :
    ∀ (cols : List Str) (ws : List Int), (∀ w ∈ ws, 1 ≤ w) →
      ∀ pr ∈ ((cols.zip ws).map (fun p => f p.1 p.2)).zip ws,
        ∀ line ∈ pr.1, line.length = pr.2.toNat := by
  intro cols
  induction cols with
  | nil => intro ws _ pr hpr; simp at hpr
  | cons c cs ih =>
    intro ws hws pr hpr
    cases ws with
    | nil => simp at hpr
    | cons w ws2 =>
      simp only [List.zip_cons_cons, List.map_cons] at hpr
      rcases List.mem_cons.mp hpr with h | h
      · subst h
        exact hf c w (hws w (List.mem_cons_self _ _))
      · exact ih ws2 (fun u hu => hws u (List.mem_cons_of_mem _ hu)) pr h

theorem exists_zip_pair : ∀ (cols : List Str) (ws : List Int), cols.length = ws.length →
    ∀ col ∈ cols, ∃ w, (col, w) ∈ cols.zip ws := by
  intro cols
  induction cols with
  | nil => intro ws _ col hc; cases hc
  | cons c cs ih =>
    intro ws hlen col hc
    cases ws with
    | nil => simp at hlen
    | cons w ws2 =>
      rcases List.mem_cons.mp hc with h | h
      · subst h
        exact ⟨w, by simp⟩
      · obtain ⟨w2, hw2⟩ := ih ws2 (by simpa using hlen) col h
        exact ⟨w2, List.mem_cons_of_mem _ hw2⟩

theorem sum_toNat_add_two (ws : List Int) (h : ∀ w ∈ ws, 0 ≤ w) :
    (ws.map (fun w => (w + 2).toNat)).sum = (ws.map Int.toNat).sum + 2 * ws.length := by
  induction ws with
  | nil => rfl
  | cons w rest ih =>
    simp only [List.map_cons, List.sum_cons, List.length_cons]
    have hw := h w (List.mem_cons_self _ _)
    rw [ih (fun u hu => h u (List.mem_cons_of_mem _ hu))]
    omega

theorem borderLine_len (l f cr r : Char) (ws : List Int) (hne : ws ≠ [])
    (hws : ∀ w ∈ ws, 0 ≤ w) :
    (borderLine l f cr r ws).length = (ws.map Int.toNat).sum + 3 * ws.length + 1 := by
  unfold borderLine
  rw [List.length_append, List.length_append,
    intercalate_length [cr] _ (by simpa using hne)]
  rw [List.map_map]
  have hcomp : (List.length ∘ fun w => repChar f (w + 2)) = fun w : Int => (w + 2).toNat := by
    funext w
    simp [repChar]
  rw [hcomp, sum_toNat_add_two ws hws]
  have hlen : 1 ≤ ws.length := List.length_pos.mpr hne
  simp only [List.length_singleton, List.length_map, List.length_cons, List.length_nil]
  omega

theorem rowSepLine_len (l f cr r : Char) (ws : List Int) (hne : ws ≠ [])
    (hws : ∀ w ∈ ws, 0 ≤ w) :
    (rowSepLine l f cr r ws).length = (ws.map Int.toNat).sum + 3 * ws.length + 1 := by
  unfold rowSepLine
  rw [List.length_append, List.length_append,
    intercalate_length [' ', cr, ' '] _ (by simpa using hne)]
  rw [List.map_map]
  have hcomp : (List.length ∘ fun w => repChar f w) = Int.toNat := by
    funext w
    simp [repChar]
  rw [hcomp]
  have hlen : 1 ≤ ws.length := List.length_pos.mpr hne
  simp only [List.length_map, List.length_cons, List.length_nil]
  omega

theorem wrapHeaderCell_lines (col : Str) (w : Int) (hw : 1 ≤ w) :
    wrapHeaderCell col w =
      some ((splitlines (List.intercalate ['\n'] (chunkList w.toNat col))).map
        (fun l => ljust l w)) ∧
    (∀ l ∈ (splitlines (List.intercalate ['\n'] (chunkList w.toNat col))).map
        (fun l => ljust l w), l.length = w.toNat) ∧
    (col ≠ [] → (splitlines (List.intercalate ['\n'] (chunkList w.toNat col))).map
        (fun l => ljust l w) ≠ []) := by
  refine ⟨?_, ?_, ?_⟩
  · unfold wrapHeaderCell batched
    rw [if_neg (by omega)]
    rfl
  · intro l hl
    obtain ⟨l0, hl0mem, rfl⟩ := List.mem_map.mp hl
    apply ljust_length
    have hb := splitlines_bound w.toNat (chunkList w.toNat col)
      (chunkList_mem_length _ _) l0 hl0mem
    omega
  · intro hcol
    cases col with
    | nil => exact absurd rfl hcol
    | cons c0 rest =>
      have hch := chunkList_cons w.toNat (by omega) c0 rest
      intro hcontra
      have hspl : splitlines (List.intercalate ['\n'] (chunkList w.toNat (c0 :: rest))) = [] :=
        List.map_eq_nil_iff.mp hcontra
      have hinter : List.intercalate ['\n'] (chunkList w.toNat (c0 :: rest)) = [] :=
        splitlines_eq_nil _ hspl
      rw [hch] at hinter
      have htake : List.take w.toNat (c0 :: rest) ≠ [] := by
        have : 1 ≤ w.toNat := by omega
        cases hn : w.toNat with
        | zero => omega
        | succ n => simp [List.take]
      cases hrest : chunkList w.toNat (List.drop w.toNat (c0 :: rest)) with
      | nil =>
        rw [hrest] at hinter
        rw [intercalate_single] at hinter
        exact htake hinter
      | cons a b =>
        rw [hrest, intercalate_cons₂] at hinter
        obtain ⟨h1, _⟩ := List.append_eq_nil.mp hinter
        obtain ⟨h2, _⟩ := List.append_eq_nil.mp h1
        exact htake h2

theorem wrapRowCell_lines (cell : Str) (w : Int) (hw : 1 ≤ w) :
    wrapRowCell cell w =
      some ((flatten ((splitlines cell).map (chunkList w.toNat)) []).map
        (fun l => ljust l w)) ∧
    (∀ l ∈ (flatten ((splitlines cell).map (chunkList w.toNat)) []).map
        (fun l => ljust l w), l.length = w.toNat) ∧
    (cell ≠ [] → (flatten ((splitlines cell).map (chunkList w.toNat)) []).map
        (fun l => ljust l w) ≠ []) := by
  have hb : ∀ line ∈ splitlines cell, batched line w = some (chunkList w.toNat line) := by
    intro line _
    unfold batched
    rw [if_neg (by omega)]
  have hm := mapOpt_eq_map _ _ (splitlines cell) hb
  refine ⟨?_, ?_, ?_⟩
  · unfold wrapRowCell rowCellChunks
    rw [hm]
    rfl
  · intro l hl
    obtain ⟨l0, hl0mem, rfl⟩ := List.mem_map.mp hl
    apply ljust_length
    have hle := flatten_mem_le ((splitlines cell).map (chunkList w.toNat)) [] w.toNat
      (by
        intro xs hxs x hx
        obtain ⟨para, _, rfl⟩ := List.mem_map.mp hxs
        exact chunkList_mem_length _ _ x hx)
      (by simp) l0 hl0mem
    omega
  · intro hcell
    cases hsp : splitlines cell with
    | nil => exact absurd (splitlines_eq_nil cell hsp) hcell
    | cons p ps =>
      simp only [List.map_cons]
      intro hcontra
      have := List.map_eq_nil_iff.mp hcontra
      exact flatten_cons_ne_nil _ _ _ this

end Jycli

namespace Jycli

theorem assemble_spec (lc vc rc : Char) (blocks : List (List Str)) (ws : List Int) (W : Int)
    (hlen : blocks.length = ws.length)
    (hne : blocks ≠ [])
    (hws : ∀ w ∈ ws, 1 ≤ w)
    (hblocks : ∀ pr ∈ blocks.zip ws, ∀ line ∈ pr.1, line.length = pr.2.toNat)
    (hsum : ws.sum + 3 * (ws.length : Int) + 1 = W)
    (hsome : ∃ b ∈ blocks, b ≠ []) :
    ∀ X : List Str,
      X = (if (zipRows ((blocks.zip ws).map
              (fun p => padBlock p.1 ((blocks.map List.length).foldl max 0) p.2))).isEmpty
           then [[]]
           else (zipRows ((blocks.zip ws).map
              (fun p => padBlock p.1 ((blocks.map List.length).foldl max 0) p.2))).map
                (fun cells => contentLine lc vc rc cells)) →
      X ≠ [] ∧ ∀ line ∈ X, line.length = W.toNat := by
  intro X hX
  have hble : ∀ b ∈ blocks, b.length ≤ (blocks.map List.length).foldl max 0 := by
    intro b hb
    exact mem_le_foldl_max _ 0 _ (List.mem_map_of_mem List.length hb)
  have hH1 : 1 ≤ (blocks.map List.length).foldl max 0 := by
    obtain ⟨b0, hb0, hb0ne⟩ := hsome
    exact le_trans (List.length_pos.mpr hb0ne) (hble b0 hb0)
  have hwsne : ws ≠ [] := by
    intro hcon
    rw [hcon] at hlen
    exact hne (List.eq_nil_of_length_eq_zero (by simpa using hlen))
  have hpadne : (blocks.zip ws).map
      (fun p => padBlock p.1 ((blocks.map List.length).foldl max 0) p.2) ≠ [] := by
    intro hcon
    have hz := List.map_eq_nil_iff.mp hcon
    cases blocks with
    | nil => exact hne rfl
    | cons b bs =>
      cases ws with
      | nil => exact hwsne rfl
      | cons w ws2 => simp [List.zip_cons_cons] at hz
  have hpadlen : ∀ b ∈ (blocks.zip ws).map
      (fun p => padBlock p.1 ((blocks.map List.length).foldl max 0) p.2),
      b.length = (blocks.map List.length).foldl max 0 := by
    intro b hb
    obtain ⟨pr, hpr, rfl⟩ := List.mem_map.mp hb
    exact padBlock_len _ _ _ (hble _ (List.of_mem_zip hpr).1)
  obtain ⟨hrowlen, hrowmem⟩ := zipRows_spec _ _ hpadne hpadlen
  have hrows_ne : zipRows ((blocks.zip ws).map
      (fun p => padBlock p.1 ((blocks.map List.length).foldl max 0) p.2)) ≠ [] := by
    intro hcon
    rw [hcon] at hrowlen
    simp only [List.length_nil] at hrowlen
    omega
  rw [if_neg (by simpa [List.isEmpty_iff] using hrows_ne)] at hX
  subst hX
  refine ⟨by simpa using hrows_ne, ?_⟩
  intro line hline
  obtain ⟨cells, hcellsmem, rfl⟩ := List.mem_map.mp hline
  obtain ⟨j, hj, rfl⟩ := hrowmem cells hcellsmem
  have hlens := padded_row_lengths _ j hj blocks ws hlen hblocks hble
  have hcl : (((blocks.zip ws).map
      (fun p => padBlock p.1 ((blocks.map List.length).foldl max 0) p.2)).map
      (fun b => b.getD j [])).length = ws.length := by
    have := congrArg List.length hlens
    simpa using this
  have hclne : ((blocks.zip ws).map
      (fun p => padBlock p.1 ((blocks.map List.length).foldl max 0) p.2)).map
      (fun b => b.getD j []) ≠ [] := by
    intro hcon
    rw [hcon] at hcl
    exact hwsne (List.eq_nil_of_length_eq_zero (by simpa using hcl.symm))
  unfold contentLine
  rw [List.length_append, List.length_append,
    intercalate_length [' ', vc, ' '] _ hclne]
  rw [hlens, hcl]
  have hws0 : ∀ w ∈ ws, 0 ≤ w := fun u hu => le_trans (by omega) (hws u hu)
  have hsumcast := sum_map_toNat ws hws0
  have hwlen1 : 1 ≤ ws.length := List.length_pos.mpr hwsne
  simp only [List.length_cons, List.length_nil]
  omega

end Jycli

namespace Jycli

theorem headerPiece_spec (bx : Box) (cols : List Str) (ws : List Int) (W : Int)
    (hlen : cols.length = ws.length)
    (hcols : cols ≠ [])
    (hws : ∀ w ∈ ws, 1 ≤ w)
    (hsome : ∃ col ∈ cols, col ≠ [])
    (hsum : ws.sum + 3 * (ws.length : Int) + 1 = W) :
    ∃ hdr, headerPiece bx cols ws = some hdr ∧ hdr ≠ [] ∧
      ∀ line ∈ hdr, line.length = W.toNat := by
  have hg : ∀ p ∈ cols.zip ws, wrapHeaderCell p.1 p.2 =
      some ((splitlines (List.intercalate ['\n'] (chunkList p.2.toNat p.1))).map
        (fun l => ljust l p.2)) := by
    intro p hp
    exact (wrapHeaderCell_lines p.1 p.2 (hws p.2 (List.of_mem_zip hp).2)).1
  have hm := mapOpt_eq_map (fun p : Str × Int => wrapHeaderCell p.1 p.2)
    (fun p : Str × Int =>
      (splitlines (List.intercalate ['\n'] (chunkList p.2.toNat p.1))).map
        (fun l => ljust l p.2))
    (cols.zip ws) hg
  have hblen : ((cols.zip ws).map (fun p : Str × Int =>
      (splitlines (List.intercalate ['\n'] (chunkList p.2.toNat p.1))).map
        (fun l => ljust l p.2))).length = ws.length := by
    simp [List.length_zip, hlen]
  have hbne : ((cols.zip ws).map (fun p : Str × Int =>
      (splitlines (List.intercalate ['\n'] (chunkList p.2.toNat p.1))).map
        (fun l => ljust l p.2))) ≠ [] := by
    cases cols with
    | nil => exact absurd rfl hcols
    | cons c cs =>
      cases ws with
      | nil => simp at hlen
      | cons w ws2 => simp [List.zip_cons_cons]
  have hbok := zip_blocks_ok
    (fun s w => (splitlines (List.intercalate ['\n'] (chunkList w.toNat s))).map
      (fun l => ljust l w))
    (fun s w hw1 => (wrapHeaderCell_lines s w hw1).2.1) cols ws hws
  have hbsome : ∃ b ∈ ((cols.zip ws).map (fun p : Str × Int =>
      (splitlines (List.intercalate ['\n'] (chunkList p.2.toNat p.1))).map
        (fun l => ljust l p.2))), b ≠ [] := by
    obtain ⟨col, hcmem, hcne⟩ := hsome
    obtain ⟨w0, hw0⟩ := exists_zip_pair cols ws hlen col hcmem
    refine ⟨(splitlines (List.intercalate ['\n'] (chunkList w0.toNat col))).map
      (fun l => ljust l w0), ?_, ?_⟩
    · exact List.mem_map_of_mem _ hw0
    · exact (wrapHeaderCell_lines col w0 (hws w0 (List.of_mem_zip hw0).2)).2.2 hcne
  have hassemble := assemble_spec bx.head_left bx.head_vertical bx.head_right _ ws W
    hblen hbne hws hbok hsum hbsome
  unfold headerPiece
  rw [hm]
  simp only [Option.map_some']
  refine ⟨_, rfl, ?_, ?_⟩
  · exact (hassemble _ rfl).1
  · exact (hassemble _ rfl).2

theorem rowPiece_spec (bx : Box) (ws : List Int) (row : List Str) (W : Int)
    (hlen : row.length = ws.length)
    (hrowne : row ≠ [])
    (hws : ∀ w ∈ ws, 1 ≤ w)
    (hsome : ∃ cell ∈ row, cell ≠ [])
    (hsum : ws.sum + 3 * (ws.length : Int) + 1 = W) :
    ∃ lines, rowPiece bx ws row = some lines ∧ lines ≠ [] ∧
      ∀ line ∈ lines, line.length = W.toNat := by
  have hg : ∀ p ∈ row.zip ws, wrapRowCell p.1 p.2 =
      some ((flatten ((splitlines p.1).map (chunkList p.2.toNat)) []).map
        (fun l => ljust l p.2)) := by
    intro p hp
    exact (wrapRowCell_lines p.1 p.2 (hws p.2 (List.of_mem_zip hp).2)).1
  have hm := mapOpt_eq_map (fun p : Str × Int => wrapRowCell p.1 p.2)
    (fun p : Str × Int =>
      (flatten ((splitlines p.1).map (chunkList p.2.toNat)) []).map
        (fun l => ljust l p.2))
    (row.zip ws) hg
  have hblen : ((row.zip ws).map (fun p : Str × Int =>
      (flatten ((splitlines p.1).map (chunkList p.2.toNat)) []).map
        (fun l => ljust l p.2))).length = ws.length := by
    simp [List.length_zip, hlen]
  have hbne : ((row.zip ws).map (fun p : Str × Int =>
      (flatten ((splitlines p.1).map (chunkList p.2.toNat)) []).map
        (fun l => ljust l p.2))) ≠ [] := by
    cases row with
    | nil => exact absurd rfl hrowne
    | cons c cs =>
      cases ws with
      | nil => simp at hlen
      | cons w ws2 => simp [List.zip_cons_cons]
  have hbok := zip_blocks_ok
    (fun s w => (flatten ((splitlines s).map (chunkList w.toNat)) []).map
      (fun l => ljust l w))
    (fun s w hw1 => (wrapRowCell_lines s w hw1).2.1) row ws hws
  have hbsome : ∃ b ∈ ((row.zip ws).map (fun p : Str × Int =>
      (flatten ((splitlines p.1).map (chunkList p.2.toNat)) []).map
        (fun l => ljust l p.2))), b ≠ [] := by
    obtain ⟨cell, hcmem, hcne⟩ := hsome
    obtain ⟨w0, hw0⟩ := exists_zip_pair row ws hlen cell hcmem
    refine ⟨(flatten ((splitlines cell).map (chunkList w0.toNat)) []).map
      (fun l => ljust l w0), ?_, ?_⟩
    · exact List.mem_map_of_mem _ hw0
    · exact (wrapRowCell_lines cell w0 (hws w0 (List.of_mem_zip hw0).2)).2.2 hcne
  have hassemble := assemble_spec bx.mid_left bx.mid_vertical bx.mid_right _ ws W
    hblen hbne hws hbok hsum hbsome
  unfold rowPiece
  rw [if_neg (by rw [hlen]; exact lt_irrefl _)]
  rw [if_neg (by simpa [List.isEmpty_iff] using hrowne)]
  rw [hm]
  simp only [Option.map_some']
  refine ⟨_, rfl, ?_, ?_⟩
  · exact (hassemble _ rfl).1
  · exact (hassemble _ rfl).2

end Jycli

namespace Jycli

theorem mapOpt_some_forall (f : α → Option β) (P : β → Prop) :
    ∀ xs : List α, (∀ x ∈ xs, ∃ y, f x = some y ∧ P y) →
      ∃ ys, mapOpt f xs = some ys ∧ ∀ y ∈ ys, P y := by
  intro xs
  induction xs with
  | nil => intro _; exact ⟨[], rfl, by simp⟩
  | cons x rest ih =>
    intro h
    obtain ⟨y, hy, hPy⟩ := h x (List.mem_cons_self _ _)
    obtain ⟨ys, hys, hPys⟩ := ih (fun u hu => h u (List.mem_cons_of_mem _ hu))
    refine ⟨y :: ys, ?_, ?_⟩
    · show (match f x, mapOpt f rest with
        | some y, some ys => some (y :: ys)
        | _, _ => none) = some (y :: ys)
      rw [hy, hys]
    · intro z hz
      rcases List.mem_cons.mp hz with rfl | hz2
      · exact hPy
      · exact hPys z hz2

theorem mem_intersperse (s : α) : ∀ (l : List α) (x : α), x ∈ l.intersperse s → x = s ∨ x ∈ l
  | [], x, h => absurd h (by simp)
  | [a], x, h => Or.inr (by simpa using h)
  | a :: b :: t, x, h => by
    rw [List.intersperse_cons₂] at h
    rcases List.mem_cons.mp h with h1 | h2
    · exact Or.inr (h1 ▸ List.mem_cons_self _ _)
    · rcases List.mem_cons.mp h2 with h3 | h4
      · exact Or.inl h3
      · rcases mem_intersperse s (b :: t) x h4 with h5 | h5
        · exact Or.inl h5
        · exact Or.inr (List.mem_cons_of_mem _ h5)

theorem drop_two_cons (a b : α) (l : List α) : (a :: b :: l).drop 2 = l := rfl

/-- Claim C1 (corrected): the true border overhead is 3N+1, not 2+3(N−1).  For
an explicit render width `W ≥ (3N+1) + N = 4N+1`, a table with `N ≥ 1` columns
(at least one nonempty label) and rows of arity `N` each containing a nonempty
cell renders successfully, and every border line and every content line — every
line after the leading blank line and the name line — is exactly `W` characters
wide. -/
theorem C1_width_exact (t : Table) (c : Console) (W : Int)
    (hparam : c.widthParam = some W)
    (hN : 1 ≤ t.columns.length)
    (hW : 4 * (t.columns.length : Int) + 1 ≤ W)
    (hcols : ∃ col ∈ t.columns, col ≠ [])
    (hrows : ∀ row ∈ t.rows, row.length = t.columns.length ∧ ∃ cell ∈ row, cell ≠ []) :
    ∃ ps, (consolePrintPieces t c).2 = some ps ∧
      ∀ p ∈ ps.drop 2, ∀ line ∈ p, line.length = W.toNat := by
  have hNI : (1 : Int) ≤ (t.columns.length : Int) := by exact_mod_cast hN
  have hW0 : (0 : Int) ≤ W := by omega
  have hcw : c.width = W := by
    unfold Console.width
    rw [hparam]
    show (if 0 ≤ W then W else c.detectedWidth) = W
    rw [if_pos hW0]
  obtain ⟨hwlen, hwpos, hwsum⟩ := computeWidths_spec t.columns W hN hW
  have hsum : (computeWidths t.columns W).sum +
      3 * (((computeWidths t.columns W).length : Nat) : Int) + 1 = W := by
    rw [hwlen, hwsum]
    ring
  have hcolne : t.columns ≠ [] := by
    intro hcon
    rw [hcon] at hN
    simp at hN
  have hwsne : computeWidths t.columns W ≠ [] := by
    intro hcon
    rw [hcon] at hwlen
    simp only [List.length_nil] at hwlen
    omega
  have hws0 : ∀ w ∈ computeWidths t.columns W, 0 ≤ w :=
    fun u hu => le_trans (by omega) (hwpos u hu)
  have hcast := sum_map_toNat _ hws0
  have hborderW : ∀ a b cc d : Char,
      (borderLine a b cc d (computeWidths t.columns W)).length = W.toNat := by
    intro a b cc d
    rw [borderLine_len a b cc d _ hwsne hws0]
    omega
  have hsepW : ∀ a b cc d : Char,
      (rowSepLine a b cc d (computeWidths t.columns W)).length = W.toNat := by
    intro a b cc d
    rw [rowSepLine_len a b cc d _ hwsne hws0]
    omega
  obtain ⟨hdr, hhdr, hhdrne, hhdrlen⟩ := headerPiece_spec (printedBox t c) t.columns
    (computeWidths t.columns W) W hwlen.symm hcolne hwpos hcols hsum
  have hrowsall : ∀ row ∈ t.rows, ∃ lines,
      rowPiece (printedBox t c) (computeWidths t.columns W) row = some lines ∧
      (lines ≠ [] ∧ ∀ line ∈ lines, line.length = W.toNat) := by
    intro row hrow
    obtain ⟨hrlen, hrsome⟩ := hrows row hrow
    have hrowne : row ≠ [] := by
      intro hcon
      rw [hcon] at hrlen
      simp only [List.length_nil] at hrlen
      omega
    obtain ⟨lines, h1, h2, h3⟩ := rowPiece_spec (printedBox t c) (computeWidths t.columns W)
      row W (by rw [hrlen, hwlen]) hrowne hwpos hrsome hsum
    exact ⟨lines, h1, h2, h3⟩
  obtain ⟨rps, hrps, hrpsP⟩ := mapOpt_some_forall
    (rowPiece (printedBox t c) (computeWidths t.columns W))
    (fun lines => lines ≠ [] ∧ ∀ line ∈ lines, line.length = W.toNat)
    t.rows hrowsall
  refine ⟨[[[]], [center t.name W],
      [borderLine (printedBox t c).top_left (printedBox t c).top (printedBox t c).top_divider
        (printedBox t c).top_right (computeWidths t.columns W)],
      hdr,
      [borderLine (printedBox t c).head_row_left (printedBox t c).head_row_horizontal
        (printedBox t c).head_row_cross (printedBox t c).head_row_right
        (computeWidths t.columns W)]]
      ++ List.intersperse [rowSepLine (printedBox t c).row_left (printedBox t c).row_horizontal
          (printedBox t c).row_cross (printedBox t c).row_right (computeWidths t.columns W)] rps
      ++ [[borderLine (printedBox t c).bottom_left (printedBox t c).bottom
          (printedBox t c).bottom_divider (printedBox t c).bottom_right
          (computeWidths t.columns W)]], ?_, ?_⟩
  · show consolePrintBody t c = _
    unfold consolePrintBody
    rw [hcw]
    rw [if_neg (by simpa [List.isEmpty_iff] using hcolne), hhdr, hrps]
  · intro p hp
    simp only [List.cons_append, List.nil_append] at hp
    rw [drop_two_cons] at hp
    rcases List.mem_cons.mp hp with rfl | hp
    · intro line hline
      rcases List.mem_singleton.mp hline with rfl
      exact hborderW _ _ _ _
    rcases List.mem_cons.mp hp with rfl | hp
    · exact hhdrlen
    rcases List.mem_cons.mp hp with rfl | hp
    · intro line hline
      rcases List.mem_singleton.mp hline with rfl
      exact hborderW _ _ _ _
    rcases List.mem_append.mp hp with hp2 | hp2
    · rcases mem_intersperse _ rps p hp2 with rfl | hp3
      · intro line hline
        rcases List.mem_singleton.mp hline with rfl
        exact hsepW _ _ _ _
      · exact (hrpsP p hp3).2
    · rcases List.mem_singleton.mp hp2 with rfl
      intro line hline
      rcases List.mem_singleton.mp hline with rfl
      exact hborderW _ _ _ _

/-- Witness for C1 at a concrete input: one column, two rows, width 5 = 4·1+1. -/
theorem C1_width_exact_witness :
    ∃ ps, (consolePrintPieces tableOneColRows (consoleAt 5)).2 = some ps ∧
      ∀ p ∈ ps.drop 2, ∀ line ∈ p, line.length = (5 : Int).toNat :=
  C1_width_exact tableOneColRows (consoleAt 5) 5 rfl (by decide) (by decide)
    (by decide) (by decide)

end Jycli

namespace Jycli

/-- Claim C6 (corrected): a zero-row table with N ≥ 1 columns (at least one
nonempty label) rendered at an explicit width W ≥ 4N+1 never raises, and the
returned string consists of exactly: a leading empty line, the centered name
line, the top border, the header line(s) (at least one, each W wide), the
header separator, and the bottom border — no body content and no row
separators.  (For smaller widths the render can raise even with zero rows, and
the original enumeration omits the leading empty line.) -/
theorem C6_empty_body (t : Table) (c : Console) (W : Int)
    (hparam : c.widthParam = some W)
    (hN : 1 ≤ t.columns.length)
    (hW : 4 * (t.columns.length : Int) + 1 ≤ W)
    (hcols : ∃ col ∈ t.columns, col ≠ [])
    (hnorows : t.rows = []) :
    ∃ hdr, (consolePrintPieces t c).2 =
        some [[[]], [center t.name W],
          [borderLine (printedBox t c).top_left (printedBox t c).top
            (printedBox t c).top_divider (printedBox t c).top_right
            (computeWidths t.columns W)],
          hdr,
          [borderLine (printedBox t c).head_row_left (printedBox t c).head_row_horizontal
            (printedBox t c).head_row_cross (printedBox t c).head_row_right
            (computeWidths t.columns W)],
          [borderLine (printedBox t c).bottom_left (printedBox t c).bottom
            (printedBox t c).bottom_divider (printedBox t c).bottom_right
            (computeWidths t.columns W)]] ∧
      hdr ≠ [] ∧ ∀ line ∈ hdr, line.length = W.toNat := by
  have hNI : (1 : Int) ≤ (t.columns.length : Int) := by exact_mod_cast hN
  have hW0 : (0 : Int) ≤ W := by omega
  have hcw : c.width = W := by
    unfold Console.width
    rw [hparam]
    show (if 0 ≤ W then W else c.detectedWidth) = W
    rw [if_pos hW0]
  obtain ⟨hwlen, hwpos, hwsum⟩ := computeWidths_spec t.columns W hN hW
  have hsum : (computeWidths t.columns W).sum +
      3 * (((computeWidths t.columns W).length : Nat) : Int) + 1 = W := by
    rw [hwlen, hwsum]
    ring
  have hcolne : t.columns ≠ [] := by
    intro hcon
    rw [hcon] at hN
    simp at hN
  obtain ⟨hdr, hhdr, hhdrne, hhdrlen⟩ := headerPiece_spec (printedBox t c) t.columns
    (computeWidths t.columns W) W hwlen.symm hcolne hwpos hcols hsum
  refine ⟨hdr, ?_, hhdrne, hhdrlen⟩
  show consolePrintBody t c = _
  unfold consolePrintBody
  rw [hcw, if_neg (by simpa [List.isEmpty_iff] using hcolne), hhdr, hnorows]
  rfl

/-- Witness for C6 at a concrete input: the zero-row one-column table at
width 5. -/
theorem C6_empty_body_witness :
    ∃ hdr, (consolePrintPieces tableOneCol (consoleAt 5)).2 =
        some [[[]], [center tableOneCol.name 5],
          [borderLine (printedBox tableOneCol (consoleAt 5)).top_left
            (printedBox tableOneCol (consoleAt 5)).top
            (printedBox tableOneCol (consoleAt 5)).top_divider
            (printedBox tableOneCol (consoleAt 5)).top_right
            (computeWidths tableOneCol.columns 5)],
          hdr,
          [borderLine (printedBox tableOneCol (consoleAt 5)).head_row_left
            (printedBox tableOneCol (consoleAt 5)).head_row_horizontal
            (printedBox tableOneCol (consoleAt 5)).head_row_cross
            (printedBox tableOneCol (consoleAt 5)).head_row_right
            (computeWidths tableOneCol.columns 5)],
          [borderLine (printedBox tableOneCol (consoleAt 5)).bottom_left
            (printedBox tableOneCol (consoleAt 5)).bottom
            (printedBox tableOneCol (consoleAt 5)).bottom_divider
            (printedBox tableOneCol (consoleAt 5)).bottom_right
            (computeWidths tableOneCol.columns 5)]] ∧
      hdr ≠ [] ∧ ∀ line ∈ hdr, line.length = (5 : Int).toNat :=
  C6_empty_body tableOneCol (consoleAt 5) 5 rfl (by decide) (by decide) (by decide) rfl

end Jycli
